import Mathlib

/-!
# Verification of the duplicate-detection core (`content.js`)

Shallow embedding of the perceptual-hash duplicate-detection engine:
the dHash fingerprint computation (`computeHashInternal`, `binToHex`),
the distance comparator (`hammingDistance`), the duplicate tracker
(`findMatchingHash`, `processImage`, `isSolidColor`), the eviction
policy (`evictOldestEntries`) and the throttled hash dispatcher
(`queueHash` / `processQueue`).

Conventions of the embedding:
* Hash strings are `List Char`; source keys (URLs) are `String`.
* JavaScript `Infinity` is `⊤` in `ℕ∞`; an absent (`undefined`) argument
  is `Option.none`.
* JavaScript `Map`s and `Set`s are insertion-ordered association lists /
  lists, with the operations `mapHas`, `mapGet`, `mapSet`, `mapDelete`,
  `setAdd`, `setDelete` mirroring `has/get/set/delete` and `Set.add/delete`.
-/

namespace DupDetect

/-- `parseInt(c, 16)` for one character, composed with JavaScript's
`ToInt32` coercion that the `^` operator applies (`NaN` becomes `0`):
hex digits (codes 48-57, 97-102, 65-70) map to their value, any other
character to `0`. -/
def hexVal (c : Char) : ℕ :=
  if 48 ≤ c.toNat ∧ c.toNat ≤ 57 then c.toNat - 48
  else if 97 ≤ c.toNat ∧ c.toNat ≤ 102 then c.toNat - 97 + 10
  else if 65 ≤ c.toNat ∧ c.toNat ≤ 70 then c.toNat - 65 + 10
  else 0

/-- The popcount loop of `hammingDistance`, with an explicit fuel
argument so the kernel can evaluate it; `mask / 2` at least halves each
iteration, so `n` units of fuel always suffice for mask `n`. -/
def bitcountAux : ℕ → ℕ → ℕ
  | 0, _ => 0
  | fuel + 1, n => if n = 0 then 0 else n % 2 + bitcountAux fuel (n / 2)

/-- `while (mask) { distance += mask & 1; mask >>= 1; }` applied to one
xor of hex-digit values. -/
def bitcount (n : ℕ) : ℕ := bitcountAux n n

/-- `hammingDistance(h1, h2)` from `content.js`:
`if (!h1 || !h2 || h1.length !== h2.length) return Infinity;` then sums,
over the character positions, the popcount of
`parseInt(h1[i],16) ^ parseInt(h2[i],16)`.  `none` models a missing
(`undefined`/`null`) argument; the empty string is falsy in JavaScript,
so it also takes the `Infinity` branch. -/
def hammingDistance (h1 h2 : Option (List Char)) : ℕ∞ :=
  match h1, h2 with
  | some a, some b =>
    if a = [] ∨ b = [] ∨ a.length ≠ b.length then ⊤
    else (((a.zip b).map fun p => bitcount (hexVal p.1 ^^^ hexVal p.2)).sum : ℕ)
  | _, _ => ⊤

/-- Number of bit positions (of the four bits of a hex digit) where two
hex digits differ — the specification's "XOR popcount over the hex
digits, each digit contributing up to 4". -/
def digitDiffBits (c d : Char) : ℕ :=
  ((List.range 4).filter fun j => (hexVal c).testBit j ≠ (hexVal d).testBit j).length

/-- Specification-side count of differing bits between two equal-length
hex strings. -/
def countDiffBits (a b : List Char) : ℕ :=
  ((a.zip b).map fun p => digitDiffBits p.1 p.2).sum

/-- `TARGET_SIZE` from the hashing module: images are resampled to a
32x32 grid before hashing. -/
def TARGET_SIZE : ℕ := 32

/-- Brightness used by `computeHashInternal`: for the pixel whose R
channel sits at byte index `i` of the RGBA buffer,
`(pixels[i] + pixels[i+1] + pixels[i+2]) / 3`.  JavaScript divides in
double-precision floating point; channel sums are at most 765 and
`s ↦ s / 3` is strictly monotone on that range in doubles, so exact
rational division yields the same comparisons. -/
def brightness (pixels : ℕ → ℕ) (i : ℕ) : ℚ :=
  ((pixels i : ℚ) + pixels (i + 1) + pixels (i + 2)) / 3

/-- The row-major bit string built by the nested loops of
`computeHashInternal`: for each row `y` and each adjacent horizontal
pair `(x, x+1)` one bit, `1` iff the left pixel is strictly brighter
than its right neighbor. -/
def dhashBits (pixels : ℕ → ℕ) : List Bool :=
  (List.range TARGET_SIZE).flatMap fun y =>
    (List.range (TARGET_SIZE - 1)).map fun x =>
      decide (brightness pixels ((y * TARGET_SIZE + x) * 4) >
              brightness pixels ((y * TARGET_SIZE + (x + 1)) * 4))

/-- `while (chunk.length < 4) chunk += "0";` — right-pad a short final
chunk with zero bits. -/
def pad4 (chunk : List Bool) : List Bool :=
  chunk ++ List.replicate (4 - chunk.length) false

/-- `parseInt(chunk, 2)` on a chunk of bit characters (`'1'` ↔ `true`). -/
def chunkVal (chunk : List Bool) : ℕ :=
  chunk.foldl (fun acc b => 2 * acc + b.toNat) 0

/-- `binToHex` from the hashing module: consume the bit string four bits
at a time, right-pad the final short chunk, and emit
`parseInt(chunk, 2).toString(16)` for each chunk (`Nat.digitChar`
produces lowercase hex, as `toString(16)` does). -/
def binToHex : List Bool → List Char
  | [] => []
  | b0 :: b1 :: b2 :: b3 :: rest =>
      Nat.digitChar (chunkVal [b0, b1, b2, b3]) :: binToHex rest
  | [b0] => [Nat.digitChar (chunkVal (pad4 [b0]))]
  | [b0, b1] => [Nat.digitChar (chunkVal (pad4 [b0, b1]))]
  | [b0, b1, b2] => [Nat.digitChar (chunkVal (pad4 [b0, b1, b2]))]

/-- Steps 3-4 of `computeHashInternal`: dHash the 32x32 RGBA buffer and
pack the bits to hex. -/
def computeHashInternal (pixels : ℕ → ℕ) : List Char :=
  binToHex (dhashBits pixels)

/-- `isSolidColor(hash)` from `content.js`:
`if (!hash) return false; return /^0+$/.test(hash) || /^f+$/.test(hash)`. -/
def isSolidColor (hash : List Char) : Bool :=
  if hash = [] then false
  else (hash.all fun c => c = '0') || (hash.all fun c => c = 'f')

/-- Specification-side: the four bits encoded by one hex digit, most
significant first. -/
def hexCharBits (c : Char) : List Bool :=
  [(hexVal c).testBit 3, (hexVal c).testBit 2,
   (hexVal c).testBit 1, (hexVal c).testBit 0]

/-- Specification-side: the brightness of grid pixel `(x, y)` of a
32-wide row-major RGBA buffer, as the unweighted mean of its three
color channels (alpha ignored). -/
def meanBrightness (pixels : ℕ → ℕ) (y x : ℕ) : ℚ :=
  ((pixels (4 * (32 * y + x)) : ℚ) + pixels (4 * (32 * y + x) + 1) +
    pixels (4 * (32 * y + x) + 2)) / 3

/-- `HAMMING_THRESHOLD` from `content.js`. -/
def HAMMING_THRESHOLD : ℕ := 5

/-- `MAX_CACHE_ENTRIES` from `content.js`. -/
def MAX_CACHE_ENTRIES : ℕ := 5000

/-- `MAX_FAILED_ENTRIES` from `content.js`. -/
def MAX_FAILED_ENTRIES : ℕ := 1000

/-- JavaScript `Map.prototype.has` on an insertion-ordered association
list. -/
def mapHas {κ α : Type} [DecidableEq κ] (m : List (κ × α)) (k : κ) : Bool :=
  m.any fun e => decide (e.1 = k)

/-- `Map.prototype.get`; `undefined` is `none`. -/
def mapGet {κ α : Type} [DecidableEq κ] (m : List (κ × α)) (k : κ) : Option α :=
  (m.find? fun e => decide (e.1 = k)).map Prod.snd

/-- `Map.prototype.set`: an existing key keeps its insertion position
and has its value replaced; a new key is appended. -/
def mapSet {κ α : Type} [DecidableEq κ] (m : List (κ × α)) (k : κ) (v : α) :
    List (κ × α) :=
  if mapHas m k then m.map fun e => if e.1 = k then (k, v) else e
  else m ++ [(k, v)]

/-- `Map.prototype.delete`. -/
def mapDelete {κ α : Type} [DecidableEq κ] (m : List (κ × α)) (k : κ) :
    List (κ × α) :=
  m.filter fun e => decide (e.1 ≠ k)

/-- `Set.prototype.add` on an insertion-ordered list. -/
def setAdd {α : Type} [DecidableEq α] (s : List α) (x : α) : List α :=
  if x ∈ s then s else s ++ [x]

/-- `Set.prototype.delete`. -/
def setDelete {α : Type} [DecidableEq α] (s : List α) (x : α) : List α :=
  s.filter fun y => decide (y ≠ x)

/-- The three module-level stores of `content.js`:
`processedSrcUrls : Map src→hash`, `hashToSrcUrls : Map hash→Set src`,
`failedUrls : Set src`. -/
structure Tracker where
  processed : List (String × List Char)
  groups : List (List Char × List String)
  failed : List String
deriving DecidableEq

/-- The initial (empty) stores. -/
def emptyTracker : Tracker := ⟨[], [], []⟩

/-- `findMatchingHash(newHash, hashMap)`: exact-match fast path via
`Map.has`, otherwise the first key of the map (in insertion order)
whose Hamming distance to `newHash` is at most the threshold. -/
def findMatchingHash (newHash : List Char)
    (hashMap : List (List Char × List String)) : Option (List Char) :=
  if mapHas hashMap newHash then some newHash
  else (hashMap.find? fun e =>
    decide (hammingDistance (some newHash) (some e.1) ≤
      (HAMMING_THRESHOLD : ℕ∞))).map Prod.fst

/-- `matchKey || realHash` with JavaScript falsiness: the empty string
is falsy, so an empty match key would also fall through to `realHash`
(in operation group keys are 248-character fingerprints, never empty). -/
def jsOrHash (matchKey : Option (List Char)) (realHash : List Char) : List Char :=
  match matchKey with
  | some k => if k = [] then realHash else k
  | none => realHash

/-- The member set of group `h` (`hashToSrcUrls.get(h)`, the empty set
when absent). -/
def membersOf (st : Tracker) (h : List Char) : List String :=
  (mapGet st.groups h).getD []

/-- The resolution callback of `processImage`
(`.then((realHash) => …)`), applied to the tracker state current when
the hash promise resolves: a `null` result records the key in
`failedUrls`; a degenerate (solid-color) hash is ignored; otherwise the
hash is classified via `findMatchingHash` and both maps are updated. -/
def applyResolution (st : Tracker) (src : String)
    (realHash : Option (List Char)) : Tracker :=
  match realHash with
  | none => { st with failed := setAdd st.failed src }
  | some h =>
    if isSolidColor h then st
    else
      let targetKey := jsOrHash (findMatchingHash h st.groups) h
      let groups0 := if mapHas st.groups targetKey then st.groups
                     else mapSet st.groups targetKey []
      { processed := mapSet st.processed src targetKey
        groups := mapSet groups0 targetKey
          (setAdd ((mapGet groups0 targetKey).getD []) src)
        failed := st.failed }

/-- The synchronous guards of `processImage`: a source key is queued
for hashing only if it is neither already processed nor previously
failed. -/
def processImageCheck (st : Tracker) (src : String) : Bool :=
  !(mapHas st.processed src) && !(decide (src ∈ st.failed))

/-- `processImage` under the §5 atomicity assumption: guard and
resolution callback applied as one uninterrupted step. -/
def processImageAtomic (st : Tracker) (src : String)
    (result : Option (List Char)) : Tracker :=
  if processImageCheck st src then applyResolution st src result else st

/-- One iteration of the eviction loop of `evictOldestEntries`: delete
the cache entry, drop its source key from its group's member set, and
delete the group when the set becomes empty. -/
def removeSource (st : Tracker) (e : String × List Char) : Tracker :=
  let processed := mapDelete st.processed e.1
  let groups :=
    if mapHas st.groups e.2 then
      let srcSet := setDelete ((mapGet st.groups e.2).getD []) e.1
      if srcSet = [] then mapDelete st.groups e.2
      else mapSet st.groups e.2 srcSet
    else st.groups
  { st with processed := processed, groups := groups }

/-- `evictOldestEntries()` with explicit capacities.  The `for … of`
loop visits the map in insertion order, deleting the entry it is
visiting, and stops after `entriesToRemove = size - M` iterations, so
it processes exactly the first `size - M` entries of the map; the
failed-set eviction then drops the oldest `floor(size / 2)` elements
when over its own capacity. -/
def evictOldestEntriesWith (M M2 : ℕ) (st : Tracker) : Tracker :=
  let st1 := if st.processed.length > M then
      (st.processed.take (st.processed.length - M)).foldl removeSource st
    else st
  if st1.failed.length > M2 then
    { st1 with failed := st1.failed.drop (st1.failed.length / 2) }
  else st1

/-- `evictOldestEntries()` at the configured capacities. -/
def evictOldestEntries : Tracker → Tracker :=
  evictOldestEntriesWith MAX_CACHE_ENTRIES MAX_FAILED_ENTRIES

/-- The §3 data-model invariants: every tracked source key's group
exists and contains it; every group in the map is non-empty; no source
key is in both the forward map and the failed set. -/
def Invariant (st : Tracker) : Prop :=
  (∀ e ∈ st.processed, mapHas st.groups e.2 = true ∧ e.1 ∈ membersOf st e.2) ∧
  (∀ e ∈ st.groups, e.2 ≠ []) ∧
  (∀ e ∈ st.processed, e.1 ∉ st.failed)

/-- Well-formedness that JavaScript `Map`/`Set` provide by construction:
keys and set elements are duplicate-free. -/
def WellFormed (st : Tracker) : Prop :=
  (st.processed.map Prod.fst).Nodup ∧ (st.groups.map Prod.fst).Nodup ∧
  st.failed.Nodup ∧ ∀ e ∈ st.groups, (e.2 : List String).Nodup

/-- The tracker together with the hash requests that have been queued
but not yet resolved, in FIFO order, each carrying the outcome its
fetch will eventually produce. -/
structure SysState where
  tracker : Tracker
  pending : List (String × Option (List Char))
deriving DecidableEq

/-- The synchronous part of `processImage`: when the guards pass,
`queueHash(src)` appends a request to the queue. -/
def submitImage (s : SysState) (src : String)
    (outcome : Option (List Char)) : SysState :=
  if processImageCheck s.tracker src then
    { s with pending := s.pending ++ [(src, outcome)] }
  else s

/-- Delivery of the oldest pending resolution: the `.then` callback
runs against the tracker state current at that moment. -/
def resolveNext (s : SysState) : SysState :=
  match s.pending with
  | [] => s
  | t :: rest => { tracker := applyResolution s.tracker t.1 t.2, pending := rest }

/-- State of the `ThumbHash` queue: `backlog` is the `queue` array,
`active` holds the task the `isProcessing` flag guards (the code can
store at most one; a list is used so that the concurrency bound is a
theorem rather than a typing artifact), `resolved` the delivered
results, and `started` the order in which tasks left the backlog
(ghost data for the FIFO property). -/
structure DispatchState where
  backlog : List String
  active : List String
  resolved : List (String × Option (List Char))
  started : List String
deriving DecidableEq

/-- One scheduler step of `processQueue`: a running task completes —
`computeHashInternal` resolves, or any error is caught and resolved as
`null` — and the throttle timer re-enters `processQueue`; otherwise,
when the backlog is nonempty, `queue.shift()` starts its oldest entry.
`oracle` gives each URL's fetch/decode outcome (`none` for failure). -/
def dispatchStep (oracle : String → Option (List Char))
    (s : DispatchState) : DispatchState :=
  match s.active with
  | a :: rest => { s with active := rest, resolved := s.resolved ++ [(a, oracle a)] }
  | [] =>
    match s.backlog with
    | [] => s
    | t :: ts => { s with backlog := ts, active := [t], started := s.started ++ [t] }

/-- `queueHash` for a batch of submissions: every URL enters the
backlog, nothing is active or resolved yet. -/
def initDispatch (tasks : List String) : DispatchState := ⟨tasks, [], [], []⟩

lemma hexVal_lt_16 (c : Char) : hexVal c < 16 := by
  unfold hexVal
  split
  · omega
  split
  · omega
  split
  · omega
  · omega

lemma bitcount_xor_eq_digitDiffBits (c d : Char) :
    bitcount (hexVal c ^^^ hexVal d) = digitDiffBits c d := by
  have hc := hexVal_lt_16 c
  have hd := hexVal_lt_16 d
  unfold digitDiffBits
  revert hc hd
  generalize hexVal c = x
  generalize hexVal d = y
  intro hc hd
  interval_cases x <;> interval_cases y <;> decide

lemma bitcount_zero : bitcount 0 = 0 := rfl

/-- Unfolding equation for `hammingDistance` on two present strings. -/
lemma hammingDistance_some_some (a b : List Char) :
    hammingDistance (some a) (some b) =
      if a = [] ∨ b = [] ∨ a.length ≠ b.length then (⊤ : ℕ∞)
      else ((((a.zip b).map fun p =>
        bitcount (hexVal p.1 ^^^ hexVal p.2)).sum : ℕ) : ℕ∞) := rfl

lemma sum_zip_self (a : List Char) :
    ((a.zip a).map fun p => bitcount (hexVal p.1 ^^^ hexVal p.2)).sum = 0 := by
  induction a with
  | nil => simp
  | cons c cs ih =>
      simp only [List.zip_cons_cons, List.map_cons, List.sum_cons, Nat.xor_self,
        bitcount_zero, ih]

lemma hammingDistance_self (a : List Char) (ha : a ≠ []) :
    hammingDistance (some a) (some a) = 0 := by
  rw [hammingDistance_some_some, if_neg (by simp [ha]), sum_zip_self]
  rfl

lemma hammingDistance_length_ne (a b : List Char) (h : a.length ≠ b.length) :
    hammingDistance (some a) (some b) = ⊤ := by
  rw [hammingDistance_some_some, if_pos (Or.inr (Or.inr h))]

lemma hammingDistance_eq_countDiffBits (a b : List Char) (ha : a ≠ [])
    (hl : a.length = b.length) :
    hammingDistance (some a) (some b) = (countDiffBits a b : ℕ∞) := by
  have hb : b ≠ [] := by
    intro hb
    rw [hb] at hl
    exact ha (List.eq_nil_of_length_eq_zero hl)
  rw [hammingDistance_some_some, if_neg (by simp [ha, hb, hl])]
  unfold countDiffBits
  have hmap : (fun p : Char × Char => bitcount (hexVal p.1 ^^^ hexVal p.2)) =
      fun p : Char × Char => digitDiffBits p.1 p.2 :=
    funext fun p => bitcount_xor_eq_digitDiffBits p.1 p.2
  rw [hmap]

lemma digitDiffBits_le_four (c d : Char) : digitDiffBits c d ≤ 4 := by
  unfold digitDiffBits
  calc ((List.range 4).filter fun j =>
          (hexVal c).testBit j ≠ (hexVal d).testBit j).length
      ≤ (List.range 4).length := List.length_filter_le _ _
    _ = 4 := List.length_range 4

/-- **C8**: for every fingerprint `a` (fingerprints are nonempty hex
strings; the data model fixes their length at 248 characters),
`distance(a, a) == 0`.  The empty string, which is not a fingerprint,
is the subject of C10. -/
theorem claim_C8_distance_self (a : List Char) (ha : a ≠ []) :
    hammingDistance (some a) (some a) = 0 :=
  hammingDistance_self a ha

theorem claim_C8_witness :
    (['a', 'b', 'c'] : List Char) ≠ [] ∧
      hammingDistance (some ['a', 'b', 'c']) (some ['a', 'b', 'c']) = 0 :=
  ⟨by decide, claim_C8_distance_self ['a', 'b', 'c'] (by decide)⟩

/-- **C9 counterexample**: the claim's second half fails at the pair of
empty strings: they have equal length `0` and zero differing bits, yet
`hammingDistance` returns the `Infinity` sentinel (the `!h1` falsiness
guard fires before the length comparison). -/
theorem claim_C9_counterexample :
    ([] : List Char).length = ([] : List Char).length ∧
      countDiffBits [] [] = 0 ∧
      hammingDistance (some []) (some []) = ⊤ ∧
      (⊤ : ℕ∞) ≠ ((0 : ℕ) : ℕ∞) := by
  refine ⟨rfl, rfl, by decide, by decide⟩

/-- **C9 amended**: for hex strings of unequal length `distance` is the
`Infinity` sentinel (and, being a total function, never throws); for
equal-length *nonempty* hex strings it is the count of differing bits —
the XOR popcount over the hex digits, each digit contributing at most
4. -/
theorem claim_C9_distance_total (a b : List Char) :
    (a.length ≠ b.length → hammingDistance (some a) (some b) = ⊤) ∧
    (a ≠ [] → a.length = b.length →
      hammingDistance (some a) (some b) = (countDiffBits a b : ℕ∞)) ∧
    (∀ c d, digitDiffBits c d ≤ 4) :=
  ⟨hammingDistance_length_ne a b,
   fun ha hl => hammingDistance_eq_countDiffBits a b ha hl,
   digitDiffBits_le_four⟩

theorem claim_C9_witness :
    (['0'] : List Char).length ≠ (['0', 'f'] : List Char).length ∧
      hammingDistance (some ['0']) (some ['0', 'f']) = ⊤ ∧
      hammingDistance (some ['0', 'f']) (some ['f', '0']) =
        (countDiffBits ['0', 'f'] ['f', '0'] : ℕ∞) ∧
      countDiffBits ['0', 'f'] ['f', '0'] = 8 :=
  ⟨by decide, (claim_C9_distance_total ['0'] ['0', 'f']).1 (by decide),
   (claim_C9_distance_total ['0', 'f'] ['f', '0']).2.1 (by decide) (by decide),
   by decide⟩

/-- **C10**: `hammingDistance` returns `Infinity` whenever either
argument is absent (`none`, JavaScript `undefined`/`null`) or is the
empty string; in particular `distance("", "")` is `Infinity` although
both arguments have equal length 0, so the empty string is incomparable
to every string including itself. -/
theorem claim_C10_empty_incomparable :
    (∀ b, hammingDistance none b = ⊤) ∧
    (∀ a, hammingDistance a none = ⊤) ∧
    (∀ b, hammingDistance (some ([] : List Char)) b = ⊤) ∧
    (∀ a, hammingDistance a (some ([] : List Char)) = ⊤) ∧
    hammingDistance (some ([] : List Char)) (some ([] : List Char)) = ⊤ := by
  refine ⟨fun b => ?_, fun a => ?_, fun b => ?_, fun a => ?_, by decide⟩
  · cases b <;> rfl
  · cases a <;> rfl
  · cases b with
    | none => rfl
    | some b' => rw [hammingDistance_some_some, if_pos (Or.inl rfl)]
  · cases a with
    | none => rfl
    | some a' => rw [hammingDistance_some_some, if_pos (Or.inr (Or.inl rfl))]

lemma hexCharBits_digitChar (b0 b1 b2 b3 : Bool) :
    hexCharBits (Nat.digitChar (chunkVal [b0, b1, b2, b3])) = [b0, b1, b2, b3] := by
  revert b0 b1 b2 b3
  decide

lemma binToHex_flatMap_hexCharBits (bin : List Bool) :
    (binToHex bin).flatMap hexCharBits =
      bin ++ List.replicate ((4 - bin.length % 4) % 4) false := by
  have H : ∀ (n : ℕ) (bin : List Bool), bin.length ≤ n →
      (binToHex bin).flatMap hexCharBits =
        bin ++ List.replicate ((4 - bin.length % 4) % 4) false := by
    intro n
    induction n with
    | zero =>
        intro bin hlen
        have hnil : bin = [] := List.eq_nil_of_length_eq_zero (Nat.le_zero.mp hlen)
        subst hnil
        decide
    | succ n ih =>
        intro bin hlen
        match bin with
        | [] => decide
        | [b0] => clear hlen; revert b0; decide
        | [b0, b1] => clear hlen; revert b0 b1; decide
        | [b0, b1, b2] => clear hlen; revert b0 b1 b2; decide
        | b0 :: b1 :: b2 :: b3 :: rest =>
            have hrest : rest.length ≤ n := by
              simp only [List.length_cons] at hlen
              omega
            simp only [binToHex, List.flatMap_cons, hexCharBits_digitChar, ih rest hrest]
            have hk : (4 - (b0 :: b1 :: b2 :: b3 :: rest).length % 4) % 4 =
                (4 - rest.length % 4) % 4 := by
              simp only [List.length_cons]
              omega
            rw [hk]
            simp
  exact H bin.length bin le_rfl

lemma length_flatMap_hexCharBits (l : List Char) :
    (l.flatMap hexCharBits).length = 4 * l.length := by
  induction l with
  | nil => rfl
  | cons c cs ih =>
      simp only [List.flatMap_cons, List.length_append, ih]
      simp [hexCharBits]
      omega

lemma length_range_flatMap_map {β : Type} (g : ℕ → ℕ → β) (n m : ℕ) :
    ((List.range n).flatMap fun y => (List.range m).map fun x => g y x).length
      = n * m := by
  induction n with
  | zero => simp
  | succ n ih =>
      rw [List.range_succ]
      simp only [List.flatMap_append, List.length_append, ih]
      simp [Nat.succ_mul]

lemma range_flatMap_map_getElem? {β : Type} (g : ℕ → ℕ → β) (n m y x : ℕ)
    (hy : y < n) (hx : x < m) :
    ((List.range n).flatMap fun y => (List.range m).map fun x => g y x)[m * y + x]?
      = some (g y x) := by
  induction n with
  | zero => omega
  | succ n ih =>
      rw [List.range_succ]
      simp only [List.flatMap_append]
      rcases Nat.lt_or_ge y n with hyn | hyn
      · rw [List.getElem?_append]
        rw [if_pos]
        · exact ih hyn
        · rw [length_range_flatMap_map]
          calc m * y + x < m * y + m := by omega
            _ = m * (y + 1) := by ring
            _ ≤ m * n := Nat.mul_le_mul_left m hyn
            _ = n * m := Nat.mul_comm m n
      · have hyeq : y = n := by omega
        subst hyeq
        rw [List.getElem?_append_right]
        · rw [length_range_flatMap_map]
          have harith : m * y + x - y * m = x := by
            rw [Nat.mul_comm]
            omega
          rw [harith]
          simp only [List.flatMap_cons, List.flatMap_nil, List.append_nil]
          rw [List.getElem?_map, List.getElem?_range hx]
          rfl
        · rw [length_range_flatMap_map]
          calc y * m = m * y := Nat.mul_comm y m
            _ ≤ m * y + x := Nat.le_add_right _ _

lemma dhashBits_length (pixels : ℕ → ℕ) : (dhashBits pixels).length = 992 := by
  unfold dhashBits TARGET_SIZE
  rw [length_range_flatMap_map]

/-- **C2**: for every 32x32 RGBA pixel buffer, the fingerprint is a hex
string of exactly `ceil(32*31/4) = 248` characters; unpacking each hex
digit into its four bits (left-to-right, most significant bit first)
recovers exactly the `32*31 = 992` comparison bits in row-major order
(992 is a multiple of 4, so the right zero-padding of the final group
is empty here); and the bit for row `y`, pair `(x, x+1)` is `1` exactly
when the left pixel's brightness — the unweighted mean of its R, G, B
channels, alpha ignored — is strictly greater than the right pixel's. -/
theorem claim_C2_fingerprint (pixels : ℕ → ℕ) :
    (computeHashInternal pixels).length = 248 ∧
    (computeHashInternal pixels).flatMap hexCharBits = dhashBits pixels ∧
    (dhashBits pixels).length = 992 ∧
    ∀ y x, y < 32 → x < 31 →
      (dhashBits pixels)[31 * y + x]? =
        some (decide (meanBrightness pixels y x > meanBrightness pixels y (x + 1))) := by
  have hlen : (dhashBits pixels).length = 992 := dhashBits_length pixels
  have hrt : (computeHashInternal pixels).flatMap hexCharBits = dhashBits pixels := by
    unfold computeHashInternal
    rw [binToHex_flatMap_hexCharBits, hlen]
    norm_num
  refine ⟨?_, hrt, hlen, ?_⟩
  · have h4 : ((computeHashInternal pixels).flatMap hexCharBits).length = 992 := by
      rw [hrt, hlen]
    rw [length_flatMap_hexCharBits] at h4
    omega
  · intro y x hy hx
    unfold dhashBits TARGET_SIZE
    rw [range_flatMap_map_getElem? _ 32 31 y x hy hx]
    congr 1
    have e1 : (y * 32 + x) * 4 = 4 * (32 * y + x) := by ring
    have e2 : (y * 32 + (x + 1)) * 4 = 4 * (32 * y + (x + 1)) := by ring
    unfold brightness meanBrightness
    rw [e1, e2]

theorem claim_C2_witness :
    ((0 : ℕ) < 32 ∧ (0 : ℕ) < 31) ∧
      (dhashBits fun _ => 0)[31 * 0 + 0]? =
        some (decide (meanBrightness (fun _ => 0) 0 0 >
          meanBrightness (fun _ => 0) 0 1)) :=
  ⟨⟨by decide, by decide⟩,
   (claim_C2_fingerprint fun _ => 0).2.2.2 0 0 (by decide) (by decide)⟩

section MapLemmas

variable {κ α : Type} [DecidableEq κ]

lemma mapHas_false_iff (m : List (κ × α)) (k : κ) :
    mapHas m k = false ↔ ∀ e ∈ m, e.1 ≠ k := by
  simp [mapHas]

lemma mapHas_true_iff (m : List (κ × α)) (k : κ) :
    mapHas m k = true ↔ ∃ e ∈ m, e.1 = k := by
  simp [mapHas]

lemma mapHas_of_mem {m : List (κ × α)} {e : κ × α} (he : e ∈ m) :
    mapHas m e.1 = true :=
  (mapHas_true_iff m e.1).mpr ⟨e, he, rfl⟩

lemma mapGet_eq_none {m : List (κ × α)} {k : κ} (h : mapHas m k = false) :
    mapGet m k = none := by
  unfold mapGet
  rw [List.find?_eq_none.mpr]
  · rfl
  · intro e he
    simpa using (mapHas_false_iff m k).mp h e he

lemma mapGet_isSome {m : List (κ × α)} {k : κ} (h : mapHas m k = true) :
    ∃ v, mapGet m k = some v := by
  unfold mapGet
  obtain ⟨e, he, hek⟩ := (mapHas_true_iff m k).mp h
  have : (m.find? fun e => decide (e.1 = k)).isSome := by
    rw [List.find?_isSome]
    exact ⟨e, he, by simpa using hek⟩
  obtain ⟨e', he'⟩ := Option.isSome_iff_exists.mp this
  exact ⟨e'.2, by rw [he']; rfl⟩

lemma mapGet_mem {m : List (κ × α)} {k : κ} {v : α} (h : mapGet m k = some v) :
    (k, v) ∈ m := by
  unfold mapGet at h
  obtain ⟨e, he, hev⟩ := Option.map_eq_some'.mp h
  have hmem := List.mem_of_find?_eq_some he
  have hkey : e.1 = k := by simpa using List.find?_some he
  have : e = (k, v) := by
    cases e
    simp only [Prod.mk.injEq]
    exact ⟨hkey, hev⟩
  rwa [this] at hmem

lemma mapHas_of_mapGet_some {m : List (κ × α)} {k : κ} {v : α}
    (h : mapGet m k = some v) : mapHas m k = true :=
  mapHas_of_mem (mapGet_mem h)

lemma find?_map_update {m : List (κ × α)} {k : κ} (v : α)
    (h : mapHas m k = true) :
    ((m.map fun e => if e.1 = k then (k, v) else e).find?
      fun e => decide (e.1 = k)) = some (k, v) := by
  induction m with
  | nil => simp [mapHas] at h
  | cons e m ih =>
      by_cases hek : e.1 = k
      · rw [List.map_cons, if_pos hek, List.find?_cons_of_pos _ (by simp)]
      · have h' : mapHas m k = true := by
          rw [mapHas_true_iff] at h ⊢
          obtain ⟨e', he', hk⟩ := h
          rcases List.mem_cons.mp he' with heq | hm
          · exact absurd (heq ▸ hk) hek
          · exact ⟨e', hm, hk⟩
        rw [List.map_cons, if_neg hek,
          List.find?_cons_of_neg _ (by simp [hek])]
        exact ih h'

lemma bool_not_true {b : Bool} (h : ¬ b = true) : b = false := by
  cases b
  · rfl
  · exact absurd rfl h

lemma mapHas_cons_false {e : κ × α} {m : List (κ × α)} {k : κ}
    (h : mapHas (e :: m) k = false) : e.1 ≠ k ∧ mapHas m k = false := by
  rw [mapHas_false_iff] at h
  constructor
  · exact h e (List.mem_cons_self e m)
  · rw [mapHas_false_iff]
    intro e' he'
    exact h e' (List.mem_cons_of_mem e he')

lemma find?_append_single_self {m : List (κ × α)} {k : κ} (v : α)
    (h : mapHas m k = false) :
    ((m ++ [(k, v)]).find? fun e => decide (e.1 = k)) = some (k, v) := by
  induction m with
  | nil =>
      rw [List.nil_append]
      rw [List.find?_cons_of_pos _ (by simp)]
  | cons e m ih =>
      obtain ⟨he, h'⟩ := mapHas_cons_false h
      rw [List.cons_append, List.find?_cons_of_neg _ (by simp [he])]
      exact ih h'

lemma find?_append_single_ne (m : List (κ × α)) {k k' : κ} (v : α)
    (hne : k' ≠ k) :
    ((m ++ [(k, v)]).find? fun e => decide (e.1 = k')) =
      m.find? fun e => decide (e.1 = k') := by
  induction m with
  | nil =>
      rw [List.nil_append, List.find?_nil]
      rw [List.find?_cons_of_neg _ (by
        simp only [decide_eq_true_eq]
        exact fun hk => hne hk.symm)]
      rfl
  | cons e m ih =>
      rw [List.cons_append]
      simp only [List.find?_cons]
      cases hd : decide (e.1 = k')
      · exact ih
      · rfl

lemma mapGet_set_self (m : List (κ × α)) (k : κ) (v : α) :
    mapGet (mapSet m k v) k = some v := by
  unfold mapSet
  by_cases h : mapHas m k
  · rw [if_pos h]
    unfold mapGet
    rw [find?_map_update v h]
    rfl
  · rw [if_neg h]
    unfold mapGet
    rw [find?_append_single_self v (bool_not_true h)]
    rfl

lemma find?_map_update_ne {m : List (κ × α)} {k k' : κ} (v : α) (hne : k' ≠ k) :
    ((m.map fun e => if e.1 = k then (k, v) else e).find?
      fun e => decide (e.1 = k')) = m.find? fun e => decide (e.1 = k') := by
  induction m with
  | nil => rfl
  | cons e m ih =>
      by_cases hek : e.1 = k
      · simp only [List.map_cons, if_pos hek, List.find?_cons]
        have h1 : (decide (k = k')) = false := by
          simp only [decide_eq_false_iff_not]
          exact fun hk => hne hk.symm
        have h2 : (decide (e.1 = k')) = false := by
          simp only [decide_eq_false_iff_not]
          rw [hek]
          exact fun hk => hne hk.symm
        rw [h1, h2]
        exact ih
      · simp only [List.map_cons, if_neg hek, List.find?_cons]
        cases hd : decide (e.1 = k')
        · exact ih
        · rfl

lemma mapGet_set_ne (m : List (κ × α)) {k k' : κ} (v : α) (hne : k' ≠ k) :
    mapGet (mapSet m k v) k' = mapGet m k' := by
  unfold mapSet
  by_cases h : mapHas m k
  · rw [if_pos h]
    unfold mapGet
    rw [find?_map_update_ne v hne]
  · rw [if_neg h]
    unfold mapGet
    rw [find?_append_single_ne m v hne]

lemma keys_mapSet_of_has {m : List (κ × α)} {k : κ} (v : α)
    (h : mapHas m k = true) :
    (mapSet m k v).map Prod.fst = m.map Prod.fst := by
  unfold mapSet
  rw [if_pos h, List.map_map]
  apply List.map_congr_left
  intro e _
  by_cases hek : e.1 = k
  · simp [hek]
  · simp [hek]

lemma keys_mapSet_of_not_has {m : List (κ × α)} {k : κ} (v : α)
    (h : mapHas m k = false) :
    (mapSet m k v).map Prod.fst = m.map Prod.fst ++ [k] := by
  unfold mapSet
  rw [if_neg (by simp [h]), List.map_append]
  rfl

lemma mem_mapSet {m : List (κ × α)} {k : κ} {v : α} {e : κ × α}
    (he : e ∈ mapSet m k v) : (e ∈ m ∧ e.1 ≠ k) ∨ e = (k, v) := by
  unfold mapSet at he
  by_cases h : mapHas m k
  · rw [if_pos h] at he
    obtain ⟨e', he', heq⟩ := List.mem_map.mp he
    by_cases hek : e'.1 = k
    · right
      rw [if_pos hek] at heq
      exact heq.symm
    · left
      rw [if_neg hek] at heq
      rw [← heq]
      exact ⟨he', hek⟩
  · rw [if_neg h] at he
    rcases List.mem_append.mp he with hm | hone
    · exact Or.inl ⟨hm, (mapHas_false_iff m k).mp (bool_not_true h) e hm⟩
    · right
      simpa using hone

lemma mem_mapDelete {m : List (κ × α)} {k : κ} {e : κ × α} :
    e ∈ mapDelete m k ↔ e ∈ m ∧ e.1 ≠ k := by
  unfold mapDelete
  simp [List.mem_filter]

lemma mapGet_delete_ne (m : List (κ × α)) {k k' : κ} (hne : k' ≠ k) :
    mapGet (mapDelete m k) k' = mapGet m k' := by
  unfold mapGet mapDelete
  induction m with
  | nil => rfl
  | cons e m ih =>
      by_cases hek : e.1 = k
      · rw [List.filter_cons_of_neg (by simpa using hek)]
        rw [List.find?_cons_of_neg _ (by
          simp only [decide_eq_true_eq]
          rw [hek]
          exact fun hk => hne hk.symm)]
        exact ih
      · rw [List.filter_cons_of_pos (by simpa using hek)]
        by_cases hek' : e.1 = k'
        · rw [List.find?_cons_of_pos _ (by simpa using hek'),
            List.find?_cons_of_pos _ (by simpa using hek')]
        · rw [List.find?_cons_of_neg _ (by simpa using hek'),
            List.find?_cons_of_neg _ (by simpa using hek')]
          exact ih

lemma mapHas_delete_self (m : List (κ × α)) (k : κ) :
    mapHas (mapDelete m k) k = false := by
  rw [mapHas_false_iff]
  intro e he
  exact (mem_mapDelete.mp he).2

lemma mapGet_delete_self (m : List (κ × α)) (k : κ) :
    mapGet (mapDelete m k) k = none :=
  mapGet_eq_none (mapHas_delete_self m k)

lemma nodup_keys_mapDelete {m : List (κ × α)} (k : κ)
    (h : (m.map Prod.fst).Nodup) : ((mapDelete m k).map Prod.fst).Nodup :=
  (List.Sublist.map Prod.fst (List.filter_sublist m)).nodup h

lemma nodup_keys_mapSet {m : List (κ × α)} {k : κ} (v : α)
    (h : (m.map Prod.fst).Nodup) : ((mapSet m k v).map Prod.fst).Nodup := by
  by_cases hk : mapHas m k
  · rw [keys_mapSet_of_has v hk]
    exact h
  · rw [keys_mapSet_of_not_has v (bool_not_true hk)]
    rw [List.nodup_append]
    refine ⟨h, List.nodup_singleton k, ?_⟩
    intro a ha hb
    simp only [List.mem_singleton] at hb
    subst hb
    obtain ⟨e, he, hek⟩ := List.mem_map.mp ha
    exact absurd (mapHas_of_mem he) (by rw [hek]; exact hk)

lemma mem_setAdd {s : List α} [DecidableEq α] {x y : α} :
    y ∈ setAdd s x ↔ y ∈ s ∨ y = x := by
  unfold setAdd
  by_cases h : x ∈ s
  · rw [if_pos h]
    constructor
    · exact Or.inl
    · rintro (hy | rfl)
      · exact hy
      · exact h
  · rw [if_neg h]
    simp

lemma setAdd_self_mem {s : List α} [DecidableEq α] (x : α) : x ∈ setAdd s x :=
  mem_setAdd.mpr (Or.inr rfl)

lemma setAdd_ne_nil {s : List α} [DecidableEq α] (x : α) : setAdd s x ≠ [] := by
  intro hnil
  exact absurd (hnil ▸ setAdd_self_mem x) (List.not_mem_nil x)

lemma nodup_setAdd {s : List α} [DecidableEq α] (x : α) (h : s.Nodup) :
    (setAdd s x).Nodup := by
  unfold setAdd
  by_cases hx : x ∈ s
  · rwa [if_pos hx]
  · rw [if_neg hx]
    rw [List.nodup_append]
    refine ⟨h, List.nodup_singleton x, ?_⟩
    intro a ha hb
    simp only [List.mem_singleton] at hb
    subst hb
    exact hx ha

lemma mem_setDelete {s : List α} [DecidableEq α] {x y : α} :
    y ∈ setDelete s x ↔ y ∈ s ∧ y ≠ x := by
  unfold setDelete
  simp [List.mem_filter]

lemma nodup_setDelete {s : List α} [DecidableEq α] (x : α) (h : s.Nodup) :
    (setDelete s x).Nodup :=
  (List.filter_sublist s).nodup h

lemma mapGet_append_single_ne (m : List (κ × α)) {k k' : κ} (v : α)
    (hne : k' ≠ k) : mapGet (m ++ [(k, v)]) k' = mapGet m k' := by
  unfold mapGet
  rw [find?_append_single_ne m v hne]

lemma mapGet_append_single_self {m : List (κ × α)} {k : κ} (v : α)
    (h : mapHas m k = false) : mapGet (m ++ [(k, v)]) k = some v := by
  unfold mapGet
  rw [find?_append_single_self v h]
  rfl

lemma mapSet_append_of_not_has {m : List (κ × α)} {k : κ} (w v : α)
    (h : mapHas m k = false) :
    mapSet (m ++ [(k, w)]) k v = m ++ [(k, v)] := by
  unfold mapSet
  rw [if_pos]
  · rw [List.map_append]
    have hid : ∀ e ∈ m, (if e.1 = k then (k, v) else e) = e := fun e he =>
      if_neg ((mapHas_false_iff m k).mp h e he)
    rw [List.map_congr_left hid]
    simp
  · rw [mapHas_true_iff]
    exact ⟨(k, w), List.mem_append_right m (List.mem_singleton_self _), rfl⟩

lemma find?_eq_some_of_first {β : Type} (l : List β) (p : β → Bool) (d : β)
    (i : ℕ) (hi : i < l.length) (hp : p (l.getD i d) = true)
    (hbefore : ∀ j, j < i → p (l.getD j d) = false) :
    l.find? p = some (l.getD i d) := by
  induction l generalizing i with
  | nil => simp at hi
  | cons e l ih =>
      cases i with
      | zero =>
          simp only [List.getD_cons_zero] at hp ⊢
          rw [List.find?_cons_of_pos _ hp]
      | succ i =>
          have h0 : p e = false := by
            have := hbefore 0 (Nat.succ_pos i)
            simpa using this
          rw [List.find?_cons_of_neg _ (by simp [h0])]
          simp only [List.getD_cons_succ] at hp ⊢
          exact ih i (by simpa using hi) hp
            fun j hj => by simpa using hbefore (j + 1) (by omega)

end MapLemmas

lemma applyResolution_none_eq (st : Tracker) (src : String) :
    applyResolution st src none = { st with failed := setAdd st.failed src } := rfl

lemma applyResolution_some_eq (st : Tracker) (src : String) (h : List Char) :
    applyResolution st src (some h) =
      if isSolidColor h then st
      else
        let targetKey := jsOrHash (findMatchingHash h st.groups) h
        let groups0 := if mapHas st.groups targetKey then st.groups
                       else mapSet st.groups targetKey []
        { processed := mapSet st.processed src targetKey
          groups := mapSet groups0 targetKey
            (setAdd ((mapGet groups0 targetKey).getD []) src)
          failed := st.failed } := rfl

lemma ne_nil_of_dist_le {h k : List Char}
    (hd : hammingDistance (some h) (some k) ≤ (HAMMING_THRESHOLD : ℕ∞)) :
    h ≠ [] ∧ k ≠ [] := by
  constructor
  · intro hnil
    subst hnil
    rw [hammingDistance_some_some, if_pos (Or.inl rfl)] at hd
    simp [HAMMING_THRESHOLD] at hd
  · intro hnil
    subst hnil
    rw [hammingDistance_some_some, if_pos (Or.inr (Or.inl rfl))] at hd
    simp [HAMMING_THRESHOLD] at hd

lemma getD_mem_of_lt {β : Type} (l : List β) (d : β) {i : ℕ}
    (hi : i < l.length) : l.getD i d ∈ l := by
  induction l generalizing i with
  | nil => simp at hi
  | cons e l ih =>
      cases i with
      | zero => simp
      | succ i =>
          rw [List.getD_cons_succ]
          exact List.mem_cons_of_mem e (ih (by simpa using hi))

/-- **C1**: classifying a new non-degenerate fingerprint `h` for source
key `src`: (fast path) if the group map already has key `h`, that key
is the target group; otherwise the first existing key in map insertion
order within Hamming distance 5 of `h` is the target (first acceptable,
not nearest); if no key is within the threshold, a new group keyed by
`h` itself is appended, containing only `src`.  In each case the
forward map records `src ↦ target` and `src` joins the target group's
member set. -/
theorem claim_C1_matching (st : Tracker) (src : String) (h : List Char)
    (hsolid : isSolidColor h = false) (hne : h ≠ []) :
    (mapHas st.groups h = true →
      mapGet (applyResolution st src (some h)).processed src = some h ∧
      src ∈ membersOf (applyResolution st src (some h)) h) ∧
    (mapHas st.groups h = false →
      ∀ i, i < st.groups.length →
        hammingDistance (some h) (some (st.groups.getD i ([], [])).1) ≤
          (HAMMING_THRESHOLD : ℕ∞) →
        (∀ j, j < i →
          ¬ hammingDistance (some h) (some (st.groups.getD j ([], [])).1) ≤
            (HAMMING_THRESHOLD : ℕ∞)) →
        mapGet (applyResolution st src (some h)).processed src =
          some (st.groups.getD i ([], [])).1 ∧
        src ∈ membersOf (applyResolution st src (some h))
          (st.groups.getD i ([], [])).1) ∧
    (mapHas st.groups h = false →
      (∀ e ∈ st.groups, ¬ hammingDistance (some h) (some e.1) ≤
        (HAMMING_THRESHOLD : ℕ∞)) →
      (applyResolution st src (some h)).groups = st.groups ++ [(h, [src])] ∧
      mapGet (applyResolution st src (some h)).processed src = some h) := by
  rw [applyResolution_some_eq, if_neg (by simp [hsolid])]
  refine ⟨?_, ?_, ?_⟩
  · -- exact-match fast path
    intro hhas
    have hfind : findMatchingHash h st.groups = some h := by
      unfold findMatchingHash
      rw [if_pos hhas]
    rw [hfind]
    have htarget : jsOrHash (some h) h = h := by
      show (if h = [] then h else h) = h
      rw [if_neg hne]
    simp only [htarget, if_pos hhas]
    constructor
    · exact mapGet_set_self st.processed src h
    · unfold membersOf
      simp only [mapGet_set_self]
      exact setAdd_self_mem src
  · -- first acceptable key within the threshold
    intro hnot i hi hacc hbef
    have hfind : findMatchingHash h st.groups =
        some (st.groups.getD i ([], [])).1 := by
      unfold findMatchingHash
      rw [if_neg (by simp [hnot])]
      rw [find?_eq_some_of_first st.groups _ ([], []) i hi
        (decide_eq_true hacc) fun j hj => decide_eq_false (hbef j hj)]
      rfl
    have hkne : (st.groups.getD i ([], [])).1 ≠ [] := (ne_nil_of_dist_le hacc).2
    have htarget : jsOrHash (some (st.groups.getD i ([], [])).1) h =
        (st.groups.getD i ([], [])).1 := by
      show (if (st.groups.getD i ([], [])).1 = [] then h
        else (st.groups.getD i ([], [])).1) = (st.groups.getD i ([], [])).1
      rw [if_neg hkne]
    have hkhas : mapHas st.groups (st.groups.getD i ([], [])).1 = true :=
      mapHas_of_mem (getD_mem_of_lt st.groups ([], []) hi)
    rw [hfind]
    simp only [htarget, if_pos hkhas]
    constructor
    · exact mapGet_set_self st.processed src _
    · unfold membersOf
      simp only [mapGet_set_self]
      exact setAdd_self_mem src
  · -- no match: a fresh singleton group keyed by the fingerprint
    intro hnot hall
    have hfind : findMatchingHash h st.groups = none := by
      unfold findMatchingHash
      rw [if_neg (by simp [hnot])]
      rw [List.find?_eq_none.mpr fun e he => by
        simpa using decide_eq_false (hall e he)]
      rfl
    have htarget : jsOrHash none h = h := rfl
    rw [hfind]
    simp only [htarget, if_neg (by simp [hnot] :
      ¬ mapHas st.groups h = true)]
    have hget0 : mapGet (mapSet st.groups h ([] : List String)) h =
        some [] := mapGet_set_self st.groups h []
    have hset0 : mapSet st.groups h ([] : List String) =
        st.groups ++ [(h, [])] := by
      unfold mapSet
      rw [if_neg (by simp [hnot])]
    constructor
    · rw [hget0]
      simp only [Option.getD_some]
      have hAddNil : setAdd ([] : List String) src = [src] := rfl
      rw [hAddNil, hset0, mapSet_append_of_not_has [] [src] hnot]
    · exact mapGet_set_self st.processed src h

theorem claim_C1_witness :
    isSolidColor ['0', '1'] = false ∧
      (['0', '1'] : List Char) ≠ [] ∧
      mapGet (applyResolution
          ⟨[], [(['1', '0'], ["a"])], []⟩ "b" (some ['0', '1'])).processed "b" =
        some ['1', '0'] ∧
      "b" ∈ membersOf (applyResolution
          ⟨[], [(['1', '0'], ["a"])], []⟩ "b" (some ['0', '1'])) ['1', '0'] := by
  refine ⟨by decide, by decide, ?_⟩
  have := (claim_C1_matching ⟨[], [(['1', '0'], ["a"])], []⟩ "b" ['0', '1']
    (by decide) (by decide)).2.1 (by decide) 0 (by decide) (by decide)
    (fun j hj => absurd hj (Nat.not_lt_zero j))
  exact this

lemma brightness_const {pixels : ℕ → ℕ} {r g b : ℕ}
    (hconst : ∀ k, pixels (4 * k) = r ∧ pixels (4 * k + 1) = g ∧
      pixels (4 * k + 2) = b) (k : ℕ) :
    brightness pixels (4 * k) = ((r : ℚ) + g + b) / 3 := by
  unfold brightness
  rw [(hconst k).1, (hconst k).2.1, (hconst k).2.2]

lemma range_flatMap_replicate {β : Type} (n m : ℕ) (c : β) :
    ((List.range n).flatMap fun _ => List.replicate m c) =
      List.replicate (n * m) c := by
  induction n with
  | zero => simp
  | succ n ih =>
      rw [List.range_succ, List.flatMap_append, ih]
      simp only [List.flatMap_cons, List.flatMap_nil, List.append_nil]
      rw [← List.replicate_add]
      congr 1
      ring

lemma dhashBits_const {pixels : ℕ → ℕ} {r g b : ℕ}
    (hconst : ∀ k, pixels (4 * k) = r ∧ pixels (4 * k + 1) = g ∧
      pixels (4 * k + 2) = b) :
    dhashBits pixels = List.replicate 992 false := by
  unfold dhashBits TARGET_SIZE
  have hbit : ∀ y x : ℕ,
      decide (brightness pixels ((y * 32 + x) * 4) >
        brightness pixels ((y * 32 + (x + 1)) * 4)) = false := by
    intro y x
    have e1 : (y * 32 + x) * 4 = 4 * (y * 32 + x) := by ring
    have e2 : (y * 32 + (x + 1)) * 4 = 4 * (y * 32 + (x + 1)) := by ring
    rw [e1, e2, brightness_const hconst, brightness_const hconst]
    simp
  have hrow : ∀ y : ℕ,
      ((List.range 31).map fun x =>
        decide (brightness pixels ((y * 32 + x) * 4) >
          brightness pixels ((y * 32 + (x + 1)) * 4))) =
        List.replicate 31 false := by
    intro y
    rw [show (fun x => decide (brightness pixels ((y * 32 + x) * 4) >
        brightness pixels ((y * 32 + (x + 1)) * 4))) = fun _ => false from
      funext (hbit y)]
    rw [List.map_const', List.length_range]
  rw [show (fun y => (List.range 31).map fun x =>
      decide (brightness pixels ((y * 32 + x) * 4) >
        brightness pixels ((y * 32 + (x + 1)) * 4))) =
    fun _ => List.replicate 31 false from funext hrow]
  rw [range_flatMap_replicate]

lemma binToHex_replicate_false (k : ℕ) :
    binToHex (List.replicate (4 * k) false) = List.replicate k '0' := by
  induction k with
  | zero => rfl
  | succ k ih =>
      have h4 : 4 * (k + 1) = 4 + 4 * k := by ring
      rw [h4, List.replicate_add]
      show binToHex
        (false :: false :: false :: false :: List.replicate (4 * k) false) = _
      simp only [binToHex]
      rw [ih, List.replicate_succ]
      rfl

lemma computeHash_const {pixels : ℕ → ℕ} {r g b : ℕ}
    (hconst : ∀ k, pixels (4 * k) = r ∧ pixels (4 * k + 1) = g ∧
      pixels (4 * k + 2) = b) :
    computeHashInternal pixels = List.replicate 248 '0' := by
  unfold computeHashInternal
  rw [dhashBits_const hconst, show (992 : ℕ) = 4 * 248 from rfl,
    binToHex_replicate_false 248]

lemma isSolidColor_iff (h2 : List Char) :
    isSolidColor h2 = true ↔
      (h2 ≠ [] ∧ ((∀ c ∈ h2, c = '0') ∨ ∀ c ∈ h2, c = 'f')) := by
  unfold isSolidColor
  by_cases hnil : h2 = []
  · simp [hnil]
  · rw [if_neg hnil]
    simp [List.all_eq_true, hnil]

lemma applyResolution_solid (st : Tracker) (src : String) (h : List Char)
    (hsolid : isSolidColor h = true) :
    applyResolution st src (some h) = st := by
  rw [applyResolution_some_eq, if_pos hsolid]

/-- **C6**: a constant-color 32x32 RGBA buffer hashes to the uniformly
`'0'` hex string (248 characters; since every adjacent pair has equal
brightness, every comparison bit is 0); `isSolidColor` is true exactly
on nonempty all-`'0'` or all-`'f'` strings; and classifying a degenerate
fingerprint is ignored — the tracker state is entirely unchanged. -/
theorem claim_C6_degenerate (pixels : ℕ → ℕ) (r g b : ℕ) (st : Tracker)
    (src : String) (hash : List Char)
    (hconst : ∀ k, pixels (4 * k) = r ∧ pixels (4 * k + 1) = g ∧
      pixels (4 * k + 2) = b)
    (hsolid : isSolidColor hash = true) :
    computeHashInternal pixels = List.replicate 248 '0' ∧
    isSolidColor (computeHashInternal pixels) = true ∧
    (∀ h2 : List Char, isSolidColor h2 = true ↔
      (h2 ≠ [] ∧ ((∀ c ∈ h2, c = '0') ∨ ∀ c ∈ h2, c = 'f'))) ∧
    applyResolution st src (some hash) = st := by
  refine ⟨computeHash_const hconst, ?_, isSolidColor_iff,
    applyResolution_solid st src hash hsolid⟩
  rw [computeHash_const hconst, isSolidColor_iff]
  refine ⟨?_, Or.inl fun c hc => List.eq_of_mem_replicate hc⟩
  intro hnil
  have h0 := congrArg List.length hnil
  rw [List.length_replicate, List.length_nil] at h0
  exact absurd h0 (by decide)

theorem claim_C6_witness :
    isSolidColor ['0', '0'] = true ∧
      computeHashInternal (fun _ => 5) = List.replicate 248 '0' ∧
      applyResolution ⟨[], [(['0', '1'], ["a"])], []⟩ "s" (some ['0', '0']) =
        ⟨[], [(['0', '1'], ["a"])], []⟩ :=
  ⟨by decide,
   (claim_C6_degenerate (fun _ => 5) 5 5 5 ⟨[], [(['0', '1'], ["a"])], []⟩
     "s" ['0', '0'] (fun _ => ⟨rfl, rfl, rfl⟩) (by decide)).1,
   (claim_C6_degenerate (fun _ => 5) 5 5 5 ⟨[], [(['0', '1'], ["a"])], []⟩
     "s" ['0', '0'] (fun _ => ⟨rfl, rfl, rfl⟩) (by decide)).2.2.2⟩

lemma mapHas_set_self {κ α : Type} [DecidableEq κ] (m : List (κ × α))
    (k : κ) (v : α) : mapHas (mapSet m k v) k = true :=
  mapHas_of_mapGet_some (mapGet_set_self m k v)

lemma foldl_removeSource_processed (l : List (String × List Char))
    (st : Tracker) :
    (l.foldl removeSource st).processed =
      l.foldl (fun p e => mapDelete p e.1) st.processed := by
  induction l generalizing st with
  | nil => rfl
  | cons e l ih =>
      rw [List.foldl_cons, List.foldl_cons, ih (removeSource st e)]
      rfl

lemma foldl_removeSource_failed (l : List (String × List Char))
    (st : Tracker) : (l.foldl removeSource st).failed = st.failed := by
  induction l generalizing st with
  | nil => rfl
  | cons e l ih =>
      rw [List.foldl_cons, ih (removeSource st e)]
      rfl

lemma foldl_mapDelete_take (p : List (String × List Char))
    (hnd : (p.map Prod.fst).Nodup) (n : ℕ) :
    (p.take n).foldl (fun q e => mapDelete q e.1) p = p.drop n := by
  induction p generalizing n with
  | nil => simp
  | cons e rest ih =>
      cases n with
      | zero => rfl
      | succ n =>
          rw [List.take_succ_cons, List.foldl_cons]
          have hnd2 : (e.1 :: rest.map Prod.fst).Nodup := by
            rw [← List.map_cons]
            exact hnd
          obtain ⟨hnotin, hndrest⟩ := List.nodup_cons.mp hnd2
          have hdel : mapDelete ((e :: rest) : List (String × List Char)) e.1 =
              rest := by
            unfold mapDelete
            rw [List.filter_cons_of_neg (by simp)]
            refine List.filter_eq_self.mpr fun a ha => ?_
            simp only [decide_eq_true_eq]
            intro haeq
            exact hnotin (haeq ▸ List.mem_map_of_mem Prod.fst ha)
          rw [hdel, ih hndrest n, List.drop_succ_cons]

lemma removeSource_groups_char (st : Tracker) (e : String × List Char) :
    (∀ x, x ∈ membersOf (removeSource st e) e.2 ↔
      x ∈ membersOf st e.2 ∧ x ≠ e.1) ∧
    (mapHas (removeSource st e).groups e.2 = true ↔
      ∃ x ∈ membersOf st e.2, x ≠ e.1) ∧
    (∀ k, k ≠ e.2 → mapGet (removeSource st e).groups k = mapGet st.groups k) := by
  by_cases hhas : mapHas st.groups e.2
  · obtain ⟨s, hs⟩ := mapGet_isSome hhas
    have hgroups2 : (removeSource st e).groups =
        if setDelete s e.1 = [] then mapDelete st.groups e.2
        else mapSet st.groups e.2 (setDelete s e.1) := by
      unfold removeSource
      dsimp only
      rw [if_pos hhas, hs]
      simp only [Option.getD_some]
    unfold membersOf
    rw [hgroups2, hs]
    simp only [Option.getD_some]
    by_cases hempty : setDelete s e.1 = []
    · rw [if_pos hempty]
      refine ⟨fun x => ?_, ?_, fun k hk => mapGet_delete_ne st.groups hk⟩
      · rw [mapGet_delete_self]
        simp only [Option.getD_none, List.not_mem_nil, false_iff]
        intro hx
        have hmem : x ∈ setDelete s e.1 := mem_setDelete.mpr hx
        rw [hempty] at hmem
        exact absurd hmem (List.not_mem_nil x)
      · rw [mapHas_delete_self]
        constructor
        · intro hfalse
          exact absurd hfalse (by simp)
        · rintro ⟨x, hxs, hxe⟩
          have hmem : x ∈ setDelete s e.1 := mem_setDelete.mpr ⟨hxs, hxe⟩
          rw [hempty] at hmem
          exact absurd hmem (List.not_mem_nil x)
    · rw [if_neg hempty]
      refine ⟨fun x => ?_, ?_, fun k hk => mapGet_set_ne st.groups _ hk⟩
      · rw [mapGet_set_self]
        simp only [Option.getD_some]
        exact mem_setDelete
      · rw [mapHas_set_self]
        constructor
        · intro _
          obtain ⟨x, hx⟩ := List.exists_mem_of_ne_nil _ hempty
          obtain ⟨hxs, hxe⟩ := mem_setDelete.mp hx
          exact ⟨x, hxs, hxe⟩
        · intro _
          trivial
  · have hnone : mapGet st.groups e.2 = none := mapGet_eq_none (bool_not_true hhas)
    have hgroups2 : (removeSource st e).groups = st.groups := by
      unfold removeSource
      dsimp only
      rw [if_neg hhas]
    unfold membersOf
    rw [hgroups2, hnone]
    simp only [Option.getD_none]
    refine ⟨?_, ?_, ?_⟩
    · intro x
      simp
    · constructor
      · intro htrue
        exact absurd htrue hhas
      · rintro ⟨x, hx, _⟩
        exact absurd hx (List.not_mem_nil x)
    · intro k hk
      trivial

lemma invariant_empty : Invariant emptyTracker :=
  ⟨fun e he => absurd he (List.not_mem_nil e),
   fun e he => absurd he (List.not_mem_nil e),
   fun e he => absurd he (List.not_mem_nil e)⟩

lemma wellFormed_empty : WellFormed emptyTracker :=
  ⟨List.nodup_nil, List.nodup_nil, List.nodup_nil,
   fun e he => absurd he (List.not_mem_nil e)⟩

lemma processImageCheck_true {st : Tracker} {src : String}
    (hchk : processImageCheck st src = true) :
    mapHas st.processed src = false ∧ src ∉ st.failed := by
  unfold processImageCheck at hchk
  rw [Bool.and_eq_true] at hchk
  obtain ⟨ha, hb⟩ := hchk
  constructor
  · cases hmp : mapHas st.processed src
    · rfl
    · rw [hmp] at ha
      exact absurd ha (by decide)
  · intro hmem
    rw [decide_eq_true hmem] at hb
    exact absurd hb (by decide)

lemma processImageAtomic_preserves (st : Tracker) (src : String)
    (r : Option (List Char)) (hWF : WellFormed st) (hInv : Invariant st) :
    WellFormed (processImageAtomic st src r) ∧
      Invariant (processImageAtomic st src r) := by
  obtain ⟨w1, w2, w3, w4⟩ := hWF
  obtain ⟨i1, i2, i3⟩ := hInv
  unfold processImageAtomic
  by_cases hchk : processImageCheck st src = true
  case neg =>
    rw [if_neg hchk]
    exact ⟨⟨w1, w2, w3, w4⟩, ⟨i1, i2, i3⟩⟩
  case pos =>
  rw [if_pos hchk]
  obtain ⟨hnp, hnf⟩ := processImageCheck_true hchk
  cases r with
  | none =>
      rw [applyResolution_none_eq]
      refine ⟨⟨w1, w2, nodup_setAdd src w3, w4⟩, ⟨fun e he => i1 e he, i2, ?_⟩⟩
      intro e he hmem
      rcases mem_setAdd.mp hmem with hold | heq
      · exact i3 e he hold
      · have hhasE : mapHas st.processed e.1 = true := mapHas_of_mem he
        rw [heq, hnp] at hhasE
        exact absurd hhasE (by decide)
  | some h =>
      by_cases hsolid : isSolidColor h = true
      · rw [applyResolution_solid st src h hsolid]
        exact ⟨⟨w1, w2, w3, w4⟩, ⟨i1, i2, i3⟩⟩
      rw [applyResolution_some_eq, if_neg hsolid]
      dsimp only
      set t := jsOrHash (findMatchingHash h st.groups) h with ht
      set g0 := if mapHas st.groups t = true then st.groups
        else mapSet st.groups t [] with hg0
      have hpset : mapSet st.processed src t = st.processed ++ [(src, t)] := by
        unfold mapSet
        rw [if_neg (by simp [hnp])]
      have hg0keys : (g0.map Prod.fst).Nodup := by
        rw [hg0]
        by_cases hth : mapHas st.groups t = true
        · rw [if_pos hth]
          exact w2
        · rw [if_neg hth]
          exact nodup_keys_mapSet [] w2
      have hg0mem : ∀ e ∈ g0, e ∈ st.groups ∨ e = (t, ([] : List String)) := by
        intro e he
        rw [hg0] at he
        by_cases hth : mapHas st.groups t = true
        · rw [if_pos hth] at he
          exact Or.inl he
        · rw [if_neg hth] at he
          rcases mem_mapSet he with ⟨hmem, _⟩ | heq
          · exact Or.inl hmem
          · exact Or.inr heq
      have hg0get_ne : ∀ k, k ≠ t → mapGet g0 k = mapGet st.groups k := by
        intro k hk
        rw [hg0]
        by_cases hth : mapHas st.groups t = true
        · rw [if_pos hth]
        · rw [if_neg hth]
          exact mapGet_set_ne st.groups [] hk
      have hmembers_nodup : ((mapGet g0 t).getD []).Nodup := by
        cases hget : mapGet g0 t with
        | none => exact List.nodup_nil
        | some s =>
            simp only [Option.getD_some]
            rcases hg0mem (t, s) (mapGet_mem hget) with hmem | heq
            · exact w4 (t, s) hmem
            · have : s = [] := congrArg Prod.snd heq
              rw [this]
              exact List.nodup_nil
      refine ⟨⟨nodup_keys_mapSet t w1, nodup_keys_mapSet _ hg0keys, w3, ?_⟩,
        ?_, ?_, ?_⟩
      · -- member sets stay duplicate-free
        intro e he
        rcases mem_mapSet he with ⟨hmem, hek⟩ | heq
        · rcases hg0mem e hmem with hg | hplaceholder
          · exact w4 e hg
          · rw [hplaceholder]
            exact List.nodup_nil
        · rw [heq]
          exact nodup_setAdd src hmembers_nodup
      · intro e he
        rw [hpset] at he
        rcases List.mem_append.mp he with hold | hnew
        · obtain ⟨hhasE, hmemE⟩ := i1 e hold
          by_cases he2t : e.2 = t
          · rw [he2t]
            constructor
            · exact mapHas_set_self g0 t _
            · unfold membersOf
              rw [mapGet_set_self]
              simp only [Option.getD_some]
              apply mem_setAdd.mpr
              left
              have hth : mapHas st.groups t = true := he2t ▸ hhasE
              have hgg : g0 = st.groups := by rw [hg0, if_pos hth]
              rw [hgg]
              rw [he2t] at hmemE
              exact hmemE
          · have hgetE : mapGet (mapSet g0 t
                (setAdd ((mapGet g0 t).getD []) src)) e.2 =
                mapGet st.groups e.2 := by
              rw [mapGet_set_ne g0 _ he2t, hg0get_ne e.2 he2t]
            obtain ⟨v, hv⟩ := mapGet_isSome hhasE
            constructor
            · exact mapHas_of_mapGet_some (hgetE ▸ hv)
            · unfold membersOf
              rw [hgetE]
              exact hmemE
        · have heq : e = (src, t) := by simpa using hnew
          rw [heq]
          constructor
          · exact mapHas_set_self g0 t _
          · unfold membersOf
            rw [mapGet_set_self]
            simp only [Option.getD_some]
            exact setAdd_self_mem src
      · intro e he
        rcases mem_mapSet he with ⟨hmem, hek⟩ | heq
        · rcases hg0mem e hmem with hg | hplaceholder
          · exact i2 e hg
          · exact absurd (congrArg Prod.fst hplaceholder) hek
        · rw [heq]
          exact setAdd_ne_nil src
      · intro e he
        rw [hpset] at he
        rcases List.mem_append.mp he with hold | hnew
        · exact i3 e hold
        · have heq : e = (src, t) := by simpa using hnew
          rw [heq]
          exact hnf

lemma removeSource_preserves (st : Tracker) (e : String × List Char)
    (hWF : WellFormed st) (hInv : Invariant st) :
    WellFormed (removeSource st e) ∧ Invariant (removeSource st e) := by
  obtain ⟨w1, w2, w3, w4⟩ := hWF
  obtain ⟨i1, i2, i3⟩ := hInv
  obtain ⟨hcharMem, hcharHas, hcharNe⟩ := removeSource_groups_char st e
  have hproc : (removeSource st e).processed = mapDelete st.processed e.1 := rfl
  have hfail : (removeSource st e).failed = st.failed := rfl
  have hgroupsShape : (removeSource st e).groups = st.groups ∨
      (∃ s, mapGet st.groups e.2 = some s ∧ setDelete s e.1 ≠ [] ∧
        (removeSource st e).groups = mapSet st.groups e.2 (setDelete s e.1)) ∨
      (removeSource st e).groups = mapDelete st.groups e.2 := by
    by_cases hhas : mapHas st.groups e.2 = true
    · obtain ⟨s, hs⟩ := mapGet_isSome hhas
      have hgetD : (mapGet st.groups e.2).getD [] = s := by
        rw [hs]
        rfl
      have hgeq : (removeSource st e).groups =
          (if setDelete s e.1 = [] then mapDelete st.groups e.2
           else mapSet st.groups e.2 (setDelete s e.1)) := by
        unfold removeSource
        dsimp only
        rw [if_pos hhas, hgetD]
      by_cases hempty : setDelete s e.1 = []
      · rw [hgeq, if_pos hempty]
        exact Or.inr (Or.inr rfl)
      · rw [hgeq, if_neg hempty]
        exact Or.inr (Or.inl ⟨s, hs, hempty, rfl⟩)
    · have hgeq : (removeSource st e).groups = st.groups := by
        unfold removeSource
        dsimp only
        rw [if_neg hhas]
      exact Or.inl hgeq
  constructor
  · refine ⟨?_, ?_, ?_, ?_⟩
    · rw [hproc]
      exact nodup_keys_mapDelete e.1 w1
    · rcases hgroupsShape with hsame | ⟨s, _, _, hset⟩ | hdel
      · rw [hsame]
        exact w2
      · rw [hset]
        exact nodup_keys_mapSet _ w2
      · rw [hdel]
        exact nodup_keys_mapDelete e.2 w2
    · rw [hfail]
      exact w3
    · intro a ha
      rcases hgroupsShape with hsame | ⟨s, hs, _, hset⟩ | hdel
      · rw [hsame] at ha
        exact w4 a ha
      · rw [hset] at ha
        rcases mem_mapSet ha with ⟨hmem, _⟩ | heq
        · exact w4 a hmem
        · rw [heq]
          exact nodup_setDelete e.1 (w4 (e.2, s) (mapGet_mem hs))
      · rw [hdel] at ha
        exact w4 a (mem_mapDelete.mp ha).1
  · refine ⟨?_, ?_, ?_⟩
    · intro a ha
      rw [hproc] at ha
      obtain ⟨haSt, haNe⟩ := mem_mapDelete.mp ha
      obtain ⟨hhasA, hmemA⟩ := i1 a haSt
      by_cases ha2 : a.2 = e.2
      · rw [ha2]
        constructor
        · apply hcharHas.mpr
          exact ⟨a.1, ha2 ▸ hmemA, haNe⟩
        · apply (hcharMem a.1).mpr
          exact ⟨ha2 ▸ hmemA, haNe⟩
      · have hget : mapGet (removeSource st e).groups a.2 =
            mapGet st.groups a.2 := hcharNe a.2 ha2
        obtain ⟨v, hv⟩ := mapGet_isSome hhasA
        constructor
        · exact mapHas_of_mapGet_some (hget ▸ hv)
        · unfold membersOf
          rw [hget]
          exact hmemA
    · intro a ha
      rcases hgroupsShape with hsame | ⟨s, hs, hne, hset⟩ | hdel
      · rw [hsame] at ha
        exact i2 a ha
      · rw [hset] at ha
        rcases mem_mapSet ha with ⟨hmem, _⟩ | heq
        · exact i2 a hmem
        · rw [heq]
          exact hne
      · rw [hdel] at ha
        exact i2 a (mem_mapDelete.mp ha).1
    · intro a ha
      rw [hproc] at ha
      rw [hfail]
      exact i3 a (mem_mapDelete.mp ha).1

lemma foldl_removeSource_preserves (l : List (String × List Char))
    (st : Tracker) (hWF : WellFormed st) (hInv : Invariant st) :
    WellFormed (l.foldl removeSource st) ∧ Invariant (l.foldl removeSource st) := by
  induction l generalizing st with
  | nil => exact ⟨hWF, hInv⟩
  | cons e l ih =>
      rw [List.foldl_cons]
      obtain ⟨hWF', hInv'⟩ := removeSource_preserves st e hWF hInv
      exact ih (removeSource st e) hWF' hInv'

lemma failedDrop_preserves (st : Tracker) (n : ℕ) (hWF : WellFormed st)
    (hInv : Invariant st) :
    WellFormed { st with failed := st.failed.drop n } ∧
      Invariant { st with failed := st.failed.drop n } := by
  obtain ⟨w1, w2, w3, w4⟩ := hWF
  obtain ⟨i1, i2, i3⟩ := hInv
  refine ⟨⟨w1, w2, (List.drop_sublist n st.failed).nodup w3, w4⟩,
    ⟨fun a ha => i1 a ha, i2, ?_⟩⟩
  intro a ha hmem
  exact i3 a ha (List.drop_subset n st.failed hmem)

lemma evict_preserves (M M2 : ℕ) (st : Tracker) (hWF : WellFormed st)
    (hInv : Invariant st) :
    WellFormed (evictOldestEntriesWith M M2 st) ∧
      Invariant (evictOldestEntriesWith M M2 st) := by
  unfold evictOldestEntriesWith
  dsimp only
  by_cases hgt : st.processed.length > M
  · rw [if_pos hgt]
    obtain ⟨hWF1, hInv1⟩ := foldl_removeSource_preserves
      (st.processed.take (st.processed.length - M)) st hWF hInv
    by_cases h2 : ((st.processed.take (st.processed.length - M)).foldl
        removeSource st).failed.length > M2
    · rw [if_pos h2]
      exact failedDrop_preserves _ _ hWF1 hInv1
    · rw [if_neg h2]
      exact ⟨hWF1, hInv1⟩
  · rw [if_neg hgt]
    by_cases h2 : st.failed.length > M2
    · rw [if_pos h2]
      exact failedDrop_preserves _ _ hWF hInv
    · rw [if_neg h2]
      exact ⟨hWF, hInv⟩

lemma mem_membersOf_has {st : Tracker} {k : List Char} {x : String}
    (hx : x ∈ membersOf st k) : mapHas st.groups k = true := by
  unfold membersOf at hx
  cases hget : mapGet st.groups k with
  | none =>
      rw [hget] at hx
      exact absurd hx (List.not_mem_nil x)
  | some s => exact mapHas_of_mapGet_some hget

lemma mapHas_eq_isSome {κ α : Type} [DecidableEq κ] (m : List (κ × α)) (k : κ) :
    mapHas m k = (mapGet m k).isSome := by
  cases hh : mapHas m k
  · rw [mapGet_eq_none hh]
    rfl
  · obtain ⟨v, hv⟩ := mapGet_isSome hh
    rw [hv]
    rfl

lemma removeSource_membersOf_char (st : Tracker) (e : String × List Char)
    (k : List Char) (x : String) :
    x ∈ membersOf (removeSource st e) k ↔
      (x ∈ membersOf st k ∧ ¬ (k = e.2 ∧ x = e.1)) := by
  obtain ⟨hcharMem, _, hcharNe⟩ := removeSource_groups_char st e
  by_cases hk : k = e.2
  · subst hk
    rw [hcharMem x]
    constructor
    · rintro ⟨hxm, hxe⟩
      exact ⟨hxm, fun hc => hxe hc.2⟩
    · rintro ⟨hxm, hne⟩
      exact ⟨hxm, fun hc => hne ⟨rfl, hc⟩⟩
  · have hsame : membersOf (removeSource st e) k = membersOf st k := by
      unfold membersOf
      rw [hcharNe k hk]
    rw [hsame]
    constructor
    · intro hxm
      exact ⟨hxm, fun hc => hk hc.1⟩
    · rintro ⟨hxm, _⟩
      exact hxm

lemma foldl_removeSource_membersOf (l : List (String × List Char))
    (st : Tracker) (k : List Char) (x : String) :
    x ∈ membersOf (l.foldl removeSource st) k ↔
      (x ∈ membersOf st k ∧ (x, k) ∉ l) := by
  induction l generalizing st with
  | nil => simp
  | cons e l ih =>
      rw [List.foldl_cons, ih (removeSource st e),
        removeSource_membersOf_char st e k x]
      constructor
      · rintro ⟨⟨hxm, hne⟩, hnl⟩
        refine ⟨hxm, ?_⟩
        intro hmem
        rcases List.mem_cons.mp hmem with heq | hl
        · obtain ⟨h1, h2⟩ := Prod.ext_iff.mp heq
          exact hne ⟨h2, h1⟩
        · exact hnl hl
      · rintro ⟨hxm, hncons⟩
        refine ⟨⟨hxm, ?_⟩, ?_⟩
        · rintro ⟨hk, hx1⟩
          apply hncons
          apply List.mem_cons.mpr
          left
          rw [Prod.ext_iff]
          exact ⟨hx1, hk⟩
        · intro hl
          exact hncons (List.mem_cons.mpr (Or.inr hl))

lemma foldl_removeSource_has (l : List (String × List Char)) (st : Tracker)
    (hWF : WellFormed st) (hInv : Invariant st) (k : List Char) :
    mapHas (l.foldl removeSource st).groups k = true ↔
      (mapHas st.groups k = true ∧ ∃ x ∈ membersOf st k, (x, k) ∉ l) := by
  induction l generalizing st with
  | nil =>
      rw [List.foldl_nil]
      constructor
      · intro hh
        refine ⟨hh, ?_⟩
        obtain ⟨s, hs⟩ := mapGet_isSome hh
        have hsne : s ≠ [] := hInv.2.1 (k, s) (mapGet_mem hs)
        obtain ⟨x, hx⟩ := List.exists_mem_of_ne_nil s hsne
        refine ⟨x, ?_, List.not_mem_nil _⟩
        unfold membersOf
        rw [hs]
        exact hx
      · rintro ⟨hh, _⟩
        exact hh
  | cons e l ih =>
      rw [List.foldl_cons]
      obtain ⟨hWF2, hInv2⟩ := removeSource_preserves st e hWF hInv
      rw [ih (removeSource st e) hWF2 hInv2]
      obtain ⟨hcharMem, hcharHas, hcharNe⟩ := removeSource_groups_char st e
      by_cases hk : k = e.2
      · subst hk
        constructor
        · rintro ⟨_, x, hx2, hnl⟩
          obtain ⟨hxm, hxe⟩ := (hcharMem x).mp hx2
          refine ⟨mem_membersOf_has hxm, x, hxm, ?_⟩
          intro hmem
          rcases List.mem_cons.mp hmem with heq | hl
          · exact hxe (Prod.ext_iff.mp heq).1
          · exact hnl hl
        · rintro ⟨hhas, x, hxm, hncons⟩
          have hxe : x ≠ e.1 := by
            intro hxeq
            apply hncons
            apply List.mem_cons.mpr
            left
            rw [Prod.ext_iff]
            exact ⟨hxeq, rfl⟩
          refine ⟨hcharHas.mpr ⟨x, hxm, hxe⟩, x,
            (hcharMem x).mpr ⟨hxm, hxe⟩, ?_⟩
          intro hl
          exact hncons (List.mem_cons.mpr (Or.inr hl))
      · have hhas_eq : mapHas (removeSource st e).groups k =
            mapHas st.groups k := by
          rw [mapHas_eq_isSome, mapHas_eq_isSome, hcharNe k hk]
        have hmem_eq : membersOf (removeSource st e) k = membersOf st k := by
          unfold membersOf
          rw [hcharNe k hk]
        rw [hhas_eq, hmem_eq]
        constructor
        · rintro ⟨hhas, x, hxm, hnl⟩
          refine ⟨hhas, x, hxm, ?_⟩
          intro hmem
          rcases List.mem_cons.mp hmem with heq | hl
          · exact hk (Prod.ext_iff.mp heq).2
          · exact hnl hl
        · rintro ⟨hhas, x, hxm, hncons⟩
          exact ⟨hhas, x, hxm, fun hl =>
            hncons (List.mem_cons.mpr (Or.inr hl))⟩

/-- **C3**: with the source-record map over capacity `M`, eviction
removes exactly the oldest-inserted entries until exactly `M` remain,
and — for any number of removed entries — each removed source key is
also removed from its duplicate group's member set (no other member of
any group is touched), and a group entry survives the eviction exactly
when its member set is still non-empty afterwards (it is deleted when
the set becomes empty).  In particular, with `M + 1` tracked keys the
single oldest entry `(src0, h0)` is removed, `src0` leaves group `h0`,
and all other groups are untouched.  Independently, a failed set over
capacity `M2` loses its oldest `floor(size / 2)` elements in one batch.
The configured capacities are `M = 5000`, `M2 = 1000`. -/
theorem claim_C3_eviction (M M2 : ℕ) (st : Tracker)
    (hnd : (st.processed.map Prod.fst).Nodup) :
    (st.processed.length > M →
      (evictOldestEntriesWith M M2 st).processed =
        st.processed.drop (st.processed.length - M) ∧
      (evictOldestEntriesWith M M2 st).processed.length = M) ∧
    (st.processed.length > M → WellFormed st → Invariant st →
      (∀ e ∈ st.processed.take (st.processed.length - M),
        e.1 ∉ membersOf (evictOldestEntriesWith M M2 st) e.2) ∧
      (∀ k x, x ∈ membersOf (evictOldestEntriesWith M M2 st) k ↔
        (x ∈ membersOf st k ∧
          (x, k) ∉ st.processed.take (st.processed.length - M))) ∧
      (∀ k, mapHas (evictOldestEntriesWith M M2 st).groups k = true ↔
        (mapHas st.groups k = true ∧
          membersOf (evictOldestEntriesWith M M2 st) k ≠ []))) ∧
    (∀ src0 h0 rest, st.processed = (src0, h0) :: rest → rest.length = M →
      (evictOldestEntriesWith M M2 st).processed = rest ∧
      (∀ x, x ∈ membersOf (evictOldestEntriesWith M M2 st) h0 ↔
        x ∈ membersOf st h0 ∧ x ≠ src0) ∧
      (mapHas (evictOldestEntriesWith M M2 st).groups h0 = true ↔
        ∃ x ∈ membersOf st h0, x ≠ src0) ∧
      (∀ k, k ≠ h0 →
        mapGet (evictOldestEntriesWith M M2 st).groups k = mapGet st.groups k)) ∧
    ((evictOldestEntriesWith M M2 st).failed =
      if st.failed.length > M2 then st.failed.drop (st.failed.length / 2)
      else st.failed) ∧
    evictOldestEntries st = evictOldestEntriesWith 5000 1000 st := by
  have hfailed1 : ∀ b : Tracker, (evictOldestEntriesWith M M2 b) =
      let b1 := if b.processed.length > M then
          (b.processed.take (b.processed.length - M)).foldl removeSource b
        else b
      if b1.failed.length > M2 then
        { b1 with failed := b1.failed.drop (b1.failed.length / 2) }
      else b1 := fun b => rfl
  refine ⟨?_, ?_, ?_, ?_, rfl⟩
  · intro hgt
    have hp : (evictOldestEntriesWith M M2 st).processed =
        st.processed.drop (st.processed.length - M) := by
      rw [hfailed1 st]
      dsimp only
      rw [if_pos hgt]
      have hfold : ((st.processed.take (st.processed.length - M)).foldl
          removeSource st).processed =
          st.processed.drop (st.processed.length - M) := by
        rw [foldl_removeSource_processed]
        exact foldl_mapDelete_take st.processed hnd _
      by_cases h2 : (((st.processed.take (st.processed.length - M)).foldl
          removeSource st).failed.length > M2)
      · rw [if_pos h2]
        exact hfold
      · rw [if_neg h2]
        exact hfold
    refine ⟨hp, ?_⟩
    rw [hp, List.length_drop]
    omega
  · intro hgt hWF hInv
    have hgroups : (evictOldestEntriesWith M M2 st).groups =
        ((st.processed.take (st.processed.length - M)).foldl
          removeSource st).groups := by
      rw [hfailed1 st]
      dsimp only
      rw [if_pos hgt]
      by_cases h2 : (((st.processed.take (st.processed.length - M)).foldl
          removeSource st).failed.length > M2)
      · rw [if_pos h2]
      · rw [if_neg h2]
    have hmembers : ∀ k, membersOf (evictOldestEntriesWith M M2 st) k =
        membersOf ((st.processed.take (st.processed.length - M)).foldl
          removeSource st) k := by
      intro k
      unfold membersOf
      rw [hgroups]
    refine ⟨?_, ?_, ?_⟩
    · intro e he hmem
      rw [hmembers] at hmem
      obtain ⟨_, hnotin⟩ := (foldl_removeSource_membersOf
        (st.processed.take (st.processed.length - M)) st e.2 e.1).mp hmem
      apply hnotin
      rw [Prod.mk.eta]
      exact he
    · intro k x
      rw [hmembers]
      exact foldl_removeSource_membersOf _ st k x
    · intro k
      rw [hgroups, hmembers k]
      rw [foldl_removeSource_has _ st hWF hInv k]
      constructor
      · rintro ⟨hhas, x, hxm, hxn⟩
        refine ⟨hhas, ?_⟩
        intro hnil
        have hx : x ∈ membersOf ((st.processed.take
            (st.processed.length - M)).foldl removeSource st) k :=
          (foldl_removeSource_membersOf _ st k x).mpr ⟨hxm, hxn⟩
        rw [hnil] at hx
        exact absurd hx (List.not_mem_nil x)
      · rintro ⟨hhas, hne⟩
        obtain ⟨x, hx⟩ := List.exists_mem_of_ne_nil _ hne
        obtain ⟨hxm, hxn⟩ := (foldl_removeSource_membersOf _ st k x).mp hx
        exact ⟨hhas, x, hxm, hxn⟩
  · intro src0 h0 rest hsplit hlen
    have hgt : st.processed.length > M := by
      rw [hsplit, List.length_cons]
      omega
    have htake : st.processed.take (st.processed.length - M) =
        [(src0, h0)] := by
      rw [hsplit, List.length_cons, hlen]
      have : M + 1 - M = 1 := by omega
      rw [this, List.take_succ_cons, List.take_zero]
    have hst1 : (st.processed.take (st.processed.length - M)).foldl
        removeSource st = removeSource st (src0, h0) := by
      rw [htake]
      rfl
    have hchar := removeSource_groups_char st (src0, h0)
    have hgroups : (evictOldestEntriesWith M M2 st).groups =
        (removeSource st (src0, h0)).groups := by
      rw [hfailed1 st]
      dsimp only
      rw [if_pos hgt, hst1]
      by_cases h2 : ((removeSource st (src0, h0)).failed.length > M2)
      · rw [if_pos h2]
      · rw [if_neg h2]
    have hproc : (evictOldestEntriesWith M M2 st).processed = rest := by
      rw [hfailed1 st]
      dsimp only
      rw [if_pos hgt, hst1]
      have hrp : (removeSource st (src0, h0)).processed = rest := by
        show mapDelete st.processed (src0, h0).1 = rest
        rw [hsplit]
        unfold mapDelete
        rw [List.filter_cons_of_neg (by simp)]
        refine List.filter_eq_self.mpr fun a ha => ?_
        simp only [decide_eq_true_eq]
        intro haeq
        have hnd2 : ((src0, h0).1 :: rest.map Prod.fst).Nodup := by
          rw [← List.map_cons, ← hsplit]
          exact hnd
        obtain ⟨hnotin, _⟩ := List.nodup_cons.mp hnd2
        have hmap : a.1 ∈ rest.map Prod.fst := List.mem_map_of_mem Prod.fst ha
        rw [haeq] at hmap
        exact hnotin hmap
      by_cases h2 : ((removeSource st (src0, h0)).failed.length > M2)
      · rw [if_pos h2]
        exact hrp
      · rw [if_neg h2]
        exact hrp
    refine ⟨hproc, fun x => ?_, ?_, fun k hk => ?_⟩
    · unfold membersOf
      rw [hgroups]
      exact hchar.1 x
    · rw [hgroups]
      exact hchar.2.1
    · rw [hgroups]
      exact hchar.2.2 k hk
  · rw [hfailed1 st]
    dsimp only
    have hf1 : (if st.processed.length > M then
        (st.processed.take (st.processed.length - M)).foldl removeSource st
      else st).failed = st.failed := by
      by_cases hgt : st.processed.length > M
      · rw [if_pos hgt]
        exact foldl_removeSource_failed _ _
      · rw [if_neg hgt]
    rw [hf1]
    by_cases h2 : st.failed.length > M2
    · rw [if_pos h2, if_pos h2]
    · rw [if_neg h2, if_neg h2]
      exact hf1

theorem claim_C3_witness :
    ((⟨[("a", ['0', '1']), ("b", ['2', '3'])],
        [(['0', '1'], ["a"]), (['2', '3'], ["b"])],
        ["x", "y", "z"]⟩ : Tracker).processed.map Prod.fst).Nodup ∧
      (evictOldestEntriesWith 1 2
        ⟨[("a", ['0', '1']), ("b", ['2', '3'])],
          [(['0', '1'], ["a"]), (['2', '3'], ["b"])],
          ["x", "y", "z"]⟩).processed = [("b", ['2', '3'])] ∧
      "a" ∉ membersOf (evictOldestEntriesWith 1 2
        ⟨[("a", ['0', '1']), ("b", ['2', '3'])],
          [(['0', '1'], ["a"]), (['2', '3'], ["b"])],
          ["x", "y", "z"]⟩) ['0', '1'] ∧
      (evictOldestEntriesWith 1 2
        ⟨[("a", ['0', '1']), ("b", ['2', '3'])],
          [(['0', '1'], ["a"]), (['2', '3'], ["b"])],
          ["x", "y", "z"]⟩).failed = ["y", "z"] := by
  refine ⟨by decide, ?_, ?_, ?_⟩
  · exact ((claim_C3_eviction 1 2 _ (by decide)).2.2.1 "a" ['0', '1']
      [("b", ['2', '3'])] rfl rfl).1
  · exact ((claim_C3_eviction 1 2
      ⟨[("a", ['0', '1']), ("b", ['2', '3'])],
        [(['0', '1'], ["a"]), (['2', '3'], ["b"])],
        ["x", "y", "z"]⟩ (by decide)).2.1 (by decide)
      ⟨by decide, by decide, by decide, by decide⟩
      ⟨by decide, by decide, by decide⟩).1 ("a", ['0', '1']) (by decide)
  · rw [(claim_C3_eviction 1 2 ⟨[("a", ['0', '1']), ("b", ['2', '3'])],
      [(['0', '1'], ["a"]), (['2', '3'], ["b"])],
      ["x", "y", "z"]⟩ (by decide)).2.2.2.1]
    decide

/-- **C4 counterexample**: the invariants do not survive a duplicate
concurrent submission of the same source key.  Two images with the same
`src` can each pass `processImage`'s guards before either hash
resolves (the guards consult the state at queue time); if the first
resolution succeeds and the second fails, the key ends up in both the
forward map and the failed set, violating invariant (3). -/
theorem claim_C4_counterexample :
    (submitImage (submitImage ⟨emptyTracker, []⟩ "a" (some ['0', '1']))
      "a" none).pending = [("a", some ['0', '1']), ("a", none)] ∧
    mapHas (resolveNext (resolveNext (submitImage (submitImage
      ⟨emptyTracker, []⟩ "a" (some ['0', '1'])) "a" none))).tracker.processed
      "a" = true ∧
    "a" ∈ (resolveNext (resolveNext (submitImage (submitImage
      ⟨emptyTracker, []⟩ "a" (some ['0', '1'])) "a" none))).tracker.failed ∧
    ¬ Invariant (resolveNext (resolveNext (submitImage (submitImage
      ⟨emptyTracker, []⟩ "a" (some ['0', '1'])) "a" none))).tracker := by
  refine ⟨by decide, by decide, by decide, ?_⟩
  intro hInv
  exact hInv.2.2 ("a", ['0', '1']) (by decide) (by decide)

/-- **C4 amended**: the three §3 invariants (forward map and group map
mutually consistent, groups non-empty, no key in both the forward map
and the failed set) are preserved by every eviction step and by every
classification step in which the guard and the resolution callback
execute as one atomic step (equivalently: as long as no source key has
two hash requests pending at once).  Well-formedness (duplicate-free
maps and sets) is preserved as well. -/
theorem claim_C4_invariants (st : Tracker) (src : String)
    (r : Option (List Char)) (M M2 : ℕ)
    (hWF : WellFormed st) (hInv : Invariant st) :
    (WellFormed (processImageAtomic st src r) ∧
      Invariant (processImageAtomic st src r)) ∧
    (WellFormed (evictOldestEntriesWith M M2 st) ∧
      Invariant (evictOldestEntriesWith M M2 st)) :=
  ⟨processImageAtomic_preserves st src r hWF hInv,
   evict_preserves M M2 st hWF hInv⟩

theorem claim_C4_witness :
    WellFormed (processImageAtomic emptyTracker "a" (some ['0', '1'])) ∧
      Invariant (processImageAtomic emptyTracker "a" (some ['0', '1'])) ∧
      Invariant (evictOldestEntriesWith 0 0 emptyTracker) :=
  ⟨(claim_C4_invariants emptyTracker "a" (some ['0', '1']) 0 0
      wellFormed_empty invariant_empty).1.1,
   (claim_C4_invariants emptyTracker "a" (some ['0', '1']) 0 0
      wellFormed_empty invariant_empty).1.2,
   (claim_C4_invariants emptyTracker "a" (some ['0', '1']) 0 0
      wellFormed_empty invariant_empty).2.2⟩

lemma dispatchStep_finish {oracle : String → Option (List Char)}
    {s : DispatchState} {a : String} {rest : List String}
    (h : s.active = a :: rest) :
    dispatchStep oracle s =
      { s with active := rest, resolved := s.resolved ++ [(a, oracle a)] } := by
  unfold dispatchStep
  rw [h]

lemma dispatchStep_idle {oracle : String → Option (List Char)}
    {s : DispatchState} (h1 : s.active = []) (h2 : s.backlog = []) :
    dispatchStep oracle s = s := by
  unfold dispatchStep
  rw [h1, h2]

lemma dispatchStep_start {oracle : String → Option (List Char)}
    {s : DispatchState} {t : String} {ts : List String}
    (h1 : s.active = []) (h2 : s.backlog = t :: ts) :
    dispatchStep oracle s =
      { s with backlog := ts, active := [t], started := s.started ++ [t] } := by
  unfold dispatchStep
  rw [h1, h2]

lemma dispatch_invariant (oracle : String → Option (List Char))
    (tasks : List String) (n : ℕ) :
    ((dispatchStep oracle)^[n] (initDispatch tasks)).active.length ≤ 1 ∧
    ((dispatchStep oracle)^[n] (initDispatch tasks)).started ++
      ((dispatchStep oracle)^[n] (initDispatch tasks)).backlog = tasks := by
  induction n with
  | zero =>
      constructor
      · simp [initDispatch]
      · simp [initDispatch]
  | succ n ih =>
      rw [Function.iterate_succ_apply']
      obtain ⟨hlen, hfifo⟩ := ih
      cases hact : ((dispatchStep oracle)^[n] (initDispatch tasks)).active with
      | cons a rest =>
          rw [dispatchStep_finish hact]
          constructor
          · have := hlen
            rw [hact] at this
            simp only [List.length_cons] at this
            simpa using Nat.le_of_succ_le_succ (Nat.le_succ_of_le
              (Nat.le_of_lt_succ (Nat.lt_succ_of_le this)))
          · exact hfifo
      | nil =>
          cases hback : ((dispatchStep oracle)^[n] (initDispatch tasks)).backlog with
          | nil =>
              rw [dispatchStep_idle hact hback]
              exact ⟨hlen, hfifo⟩
          | cons t ts =>
              rw [dispatchStep_start hact hback]
              constructor
              · simp
              · show (((dispatchStep oracle)^[n] (initDispatch tasks)).started
                  ++ [t]) ++ ts = tasks
                rw [List.append_assoc]
                rw [show ([t] ++ ts : List String) = t :: ts from rfl]
                rw [← hback]
                exact hfifo

lemma dispatchRun_complete (oracle : String → Option (List Char)) :
    ∀ (ts : List String) (res : List (String × Option (List Char)))
      (st : List String),
    (dispatchStep oracle)^[2 * ts.length] ⟨ts, [], res, st⟩ =
      ⟨[], [], res ++ ts.map fun t => (t, oracle t), st ++ ts⟩ := by
  intro ts
  induction ts with
  | nil =>
      intro res st
      simp
  | cons t ts ih =>
      intro res st
      have h2 : 2 * (t :: ts).length = 2 * ts.length + 1 + 1 := by
        simp only [List.length_cons]
        ring
      rw [h2, Function.iterate_succ_apply, Function.iterate_succ_apply]
      have hs1 : dispatchStep oracle ⟨t :: ts, [], res, st⟩ =
          ⟨ts, [t], res, st ++ [t]⟩ := rfl
      have hs2 : dispatchStep oracle ⟨ts, [t], res, st ++ [t]⟩ =
          ⟨ts, [], res ++ [(t, oracle t)], st ++ [t]⟩ := rfl
      rw [hs1, hs2, ih (res ++ [(t, oracle t)]) (st ++ [t])]
      simp

/-- **C7**: for the `ThumbHash` queue with 10 submitted URLs: at no
instant are more than 3 hash fetches active (the code's `isProcessing`
flag in fact allows at most 1, which is within the stated bound of 3);
backlog entries are started in FIFO submission order (the log of
started tasks is always a prefix of the submission order); and after
`2 * 10` scheduler steps every submitted request has resolved, each to
its fetch outcome — a fingerprint or the `null` failure outcome. -/
theorem claim_C7_dispatcher (oracle : String → Option (List Char))
    (tasks : List String) (hK : tasks.length = 10) :
    (∀ n, ((dispatchStep oracle)^[n] (initDispatch tasks)).active.length ≤ 3) ∧
    (∀ n, ((dispatchStep oracle)^[n] (initDispatch tasks)).active.length ≤ 1) ∧
    (∀ n, ((dispatchStep oracle)^[n] (initDispatch tasks)).started =
      tasks.take (((dispatchStep oracle)^[n] (initDispatch tasks)).started.length)) ∧
    ((dispatchStep oracle)^[20] (initDispatch tasks)).resolved =
      (tasks.map fun t => (t, oracle t)) ∧
    ((dispatchStep oracle)^[20] (initDispatch tasks)).backlog = [] ∧
    ((dispatchStep oracle)^[20] (initDispatch tasks)).active = [] := by
  have hrun : (dispatchStep oracle)^[20] (initDispatch tasks) =
      ⟨[], [], tasks.map fun t => (t, oracle t), tasks⟩ := by
    have h20 : (20 : ℕ) = 2 * tasks.length := by rw [hK]
    rw [h20]
    have := dispatchRun_complete oracle tasks [] []
    simpa [initDispatch] using this
  refine ⟨?_, ?_, ?_, ?_, ?_, ?_⟩
  · intro n
    have := (dispatch_invariant oracle tasks n).1
    omega
  · intro n
    exact (dispatch_invariant oracle tasks n).1
  · intro n
    have hfifo := (dispatch_invariant oracle tasks n).2
    have h1 := (List.take_left
      ((dispatchStep oracle)^[n] (initDispatch tasks)).started
      ((dispatchStep oracle)^[n] (initDispatch tasks)).backlog).symm
    rw [hfifo] at h1
    exact h1
  · rw [hrun]
  · rw [hrun]
  · rw [hrun]

theorem claim_C7_witness :
    (["u1", "u2", "u3", "u4", "u5", "u6", "u7", "u8", "u9", "u10"] :
      List String).length = 10 ∧
    ((dispatchStep (fun _ => (none : Option (List Char))))^[20]
      (initDispatch ["u1", "u2", "u3", "u4", "u5", "u6", "u7", "u8", "u9",
        "u10"])).resolved =
      (["u1", "u2", "u3", "u4", "u5", "u6", "u7", "u8", "u9", "u10"].map
        fun t => (t, (none : Option (List Char)))) :=
  ⟨rfl, (claim_C7_dispatcher (fun _ => none)
    ["u1", "u2", "u3", "u4", "u5", "u6", "u7", "u8", "u9", "u10"]
    rfl).2.2.2.1⟩

/-- **C5**: a failed fetch/decode resolves as the explicit `null`
outcome (the scheduler's catch-all resolves every task, so a full run
delivers one outcome per submitted URL, in order, failures included);
applying a `null` resolution records the key in the failed set and
changes nothing else; and a key in the failed set is never retried —
`processImage`'s guard makes the step a no-op and queues no new hash
request. -/
theorem claim_C5_failure (st : Tracker) (src : String)
    (o : Option (List Char)) (hfail : src ∈ st.failed) :
    (∀ (st2 : Tracker) (src2 : String),
      (applyResolution st2 src2 none).processed = st2.processed ∧
      (applyResolution st2 src2 none).groups = st2.groups ∧
      (applyResolution st2 src2 none).failed = setAdd st2.failed src2 ∧
      src2 ∈ (applyResolution st2 src2 none).failed) ∧
    processImageAtomic st src o = st ∧
    processImageCheck st src = false ∧
    (∀ p, submitImage ⟨st, p⟩ src o = ⟨st, p⟩) ∧
    (∀ (oracle : String → Option (List Char)) (tasks : List String),
      (dispatchStep oracle)^[2 * tasks.length] (initDispatch tasks) =
        ⟨[], [], tasks.map fun t => (t, oracle t), tasks⟩) := by
  have hchk : processImageCheck st src = false := by
    unfold processImageCheck
    rw [decide_eq_true hfail]
    simp
  refine ⟨fun st2 src2 => ⟨rfl, rfl, rfl, setAdd_self_mem src2⟩, ?_, hchk, ?_, ?_⟩
  · unfold processImageAtomic
    rw [if_neg (by simp [hchk])]
  · intro p
    unfold submitImage
    rw [if_neg (by simp [hchk])]
  · intro oracle tasks
    have := dispatchRun_complete oracle tasks [] []
    simpa [initDispatch] using this

theorem claim_C5_witness :
    "u" ∈ (⟨[], [], ["u"]⟩ : Tracker).failed ∧
      processImageAtomic ⟨[], [], ["u"]⟩ "u" (some ['0', '1']) =
        ⟨[], [], ["u"]⟩ ∧
      processImageCheck (⟨[], [], ["u"]⟩ : Tracker) "u" = false ∧
      (applyResolution emptyTracker "x" none).failed = setAdd [] "x" :=
  ⟨by decide,
   (claim_C5_failure ⟨[], [], ["u"]⟩ "u" (some ['0', '1']) (by decide)).2.1,
   (claim_C5_failure ⟨[], [], ["u"]⟩ "u" (some ['0', '1']) (by decide)).2.2.1,
   ((claim_C5_failure ⟨[], [], ["u"]⟩ "u" (some ['0', '1'])
     (by decide)).1 emptyTracker "x").2.2.1⟩

end DupDetect
